import Mathlib

/-!
# Verification of the synedrion CGGMP21 threshold-ECDSA core

This file is a shallow embedding of the repository's session driver
(`src/synedrion/src/sessions/generic.rs`, `src/src/sessions/generic.rs`),
of the presigning protocol rounds
(`src/synedrion/src/cggmp21/protocols/presigning.rs`) and of the curve
adapter (`src/src/tools/group.rs`), together with theorems settling the
frozen claims about them.

Modelling conventions:
* Curve scalars are `ZMod m` where `m` is the order of the scalar field
  (`secpOrder` for the hard-coded secp256k1 backend).  The curve group is
  cyclic of prime order generated by `G`, so points are represented by
  their discrete logarithm: a point is a `ZMod m` value `d` standing for
  `d·G`.  All point operations the code uses (addition, scalar
  multiplication, the generator, the identity, equality) are preserved by
  this representation.
* The byte-level Paillier backend is out of scope for the repository (it
  is consumed as a primitive), so a ciphertext is modelled by the public
  key it is encrypted under together with its plaintext, and the
  homomorphic operations act on the plaintext.
* The sigma protocols (`EncProof`, `AffGProof`, `LogStarProof`,
  `MulProof`, `DecProof`) live in repository modules that are not under
  `src/`; they are modelled from the spec as ideal non-interactive
  proofs: a proof is a record of the exact statement (public inputs and
  the binding auxiliary data) it was generated for, and verification
  succeeds if and only if the statement being checked is the one the
  proof was generated for.
* Wire bytes are `List ℕ`; the round-tag framing from the spec
  ("the round number as a length-one prefix, then the self-describing
  body") is modelled as a literal prefix.
-/

namespace Synedrion

instance {ε α : Type _} [DecidableEq ε] [DecidableEq α] : DecidableEq (Except ε α) :=
  fun a b =>
  match a, b with
  | .ok a, .ok b => decidable_of_iff (a = b) (by simp)
  | .error a, .error b => decidable_of_iff (a = b) (by simp)
  | .ok _, .error _ => isFalse (by simp)
  | .error _, .ok _ => isFalse (by simp)

/-! ## Error taxonomy

Modelled from the spec: `sessions/error.rs` is not under `src/`; the
variants are the ones named by spec §7 and used by
`src/synedrion/src/sessions/generic.rs`. -/

/-- `MyFault`: internal invariant violations (spec §7). -/
inductive MyFaultM where
  | invalidState (msg : String)
  | invalidId (party : ℕ)
  deriving DecidableEq, Repr

/-- `TheirFault`: faults attributable to a remote party (spec §7). -/
inductive TheirFaultM where
  | deserializationError
  | duplicateMessage
  | outOfOrderMessage (currentStage messageStage : ℕ)
  | verificationFail (msg : String)
  deriving DecidableEq, Repr

/-- `Error`: the session-level error type of
`src/synedrion/src/sessions/generic.rs`. -/
inductive ErrorM where
  | myFault (fault : MyFaultM)
  | theirFault (party : ℕ) (fault : TheirFaultM)
  deriving DecidableEq, Repr

/-! ## The hole-vector accumulator

Modelled from the spec: `tools/collections.rs` is not under `src/`.
Spec §3: "an accumulator for incoming payloads — a vector of N slots
with the party's own slot permanently empty, filled exactly once per
sender"; `Stage::receive` in the source uses `get_mut` (which fails for
the hole index and out-of-range indexes) and writes the slot once. -/

structure HoleVecAccum (α : Type) where
  hole : ℕ
  elems : List (Option α)

/-- `HoleVecAccum::new(num_parties, hole)`. -/
def HoleVecAccum.new (α : Type) (numParties hole : ℕ) : HoleVecAccum α :=
  ⟨hole, List.replicate numParties none⟩

/-- `HoleVecAccum::get_mut`: `none` when the index is the hole or out of
range, otherwise the current contents of the slot. -/
def HoleVecAccum.get? {α : Type} (a : HoleVecAccum α) (i : ℕ) : Option (Option α) :=
  if i = a.hole then none else a.elems[i]?

/-- Writing a payload into slot `i` (the `*slot = Some(payload)` of
`Stage::receive`). -/
def HoleVecAccum.set {α : Type} (a : HoleVecAccum α) (i : ℕ) (x : α) : HoleVecAccum α :=
  ⟨a.hole, a.elems.set i (some x)⟩

/-! ## The round abstraction and the `Stage`

`Stage<R: Round>` from `src/synedrion/src/sessions/generic.rs`.  The
round is polymorphic in the source (`R::Message`, `R::Payload`); here it
is a record of the capabilities the stage uses: the serde codec for the
message type and the round's `verify_received`.  `ReceiveError` has the
single variant `VerificationFail(String)` used by the protocols. -/

/-- `ToSendTyped` from `protocols/generic.rs`: a round emits either one
broadcast message or direct messages keyed by recipient index. -/
inductive ToSendTyped (M : Type) where
  | broadcast (msg : M)
  | direct (msgs : List (ℕ × M))

/-- A round instance: codec and capabilities used by `Stage`. -/
structure RoundModel (M P : Type) where
  /-- `serialize_message` for `R::Message`. -/
  enc : M → List ℕ
  /-- `deserialize_message` for `R::Message`. -/
  dec : List ℕ → Option M
  /-- `Round::to_send` (the rng is threaded by the caller in the source;
  the model is deterministic). -/
  toSend : ToSendTyped M
  /-- `Round::verify_received`; the error is the `VerificationFail`
  string. -/
  verify : ℕ → M → Except String P

structure StageM (M P : Type) where
  round : RoundModel M P
  accum : Option (HoleVecAccum P)

/-- Serialized messages without the stage number (`ToSendSerialized`). -/
inductive ToSendSerializedM where
  | broadcast (msg : List ℕ)
  | direct (msgs : List (ℕ × List ℕ))
  deriving DecidableEq

/-- Serialized messages with the stage number (`ToSend`). -/
inductive ToSendM where
  | broadcast (msg : List ℕ)
  | direct (msgs : List (ℕ × List ℕ))
  deriving DecidableEq

/-- `Stage::receive`.  The source takes `&mut self`; the model returns the
result together with the state after the call (the state is written only
by the final `*slot = Some(payload)`, so every early error return leaves
the state untouched — mirrored here by returning the input state on every
error branch). -/
def StageM.receive {M P : Type} (s : StageM M P) (frm : ℕ) (messageBytes : List ℕ) :
    Except ErrorM Unit × StageM M P :=
  match s.accum with
  | none =>
      (.error (.myFault (.invalidState "The session is in a sending stage, cannot receive messages")), s)
  | some accum =>
      match s.round.dec messageBytes with
      | none => (.error (.theirFault frm .deserializationError), s)
      | some message =>
          match accum.get? frm with
          | none => (.error (.myFault (.invalidId frm)), s)
          | some (some _) => (.error (.theirFault frm .duplicateMessage), s)
          | some none =>
              match s.round.verify frm message with
              | .error err => (.error (.theirFault frm (.verificationFail err)), s)
              | .ok payload => (.ok (), ⟨s.round, some (accum.set frm payload)⟩)

/-- `Stage::get_messages`: refuses when already in a receiving state,
otherwise serializes the round's outgoing messages and installs a fresh
accumulator. -/
def StageM.getMessages {M P : Type} (s : StageM M P) (numParties index : ℕ) :
    Except MyFaultM ToSendSerializedM × StageM M P :=
  if s.accum.isSome then
    (.error (.invalidState "The session is not in a sending state"), s)
  else
    let toSend : ToSendSerializedM :=
      match s.round.toSend with
      | .broadcast msg => .broadcast (s.round.enc msg)
      | .direct msgs => .direct (msgs.map fun p => (p.1, s.round.enc p.2))
    (.ok toSend, ⟨s.round, some (HoleVecAccum.new P numParties index)⟩)

/-! ## Round-tag framing

Modelled from the spec: the byte format of `rmp_serde` is external; spec
§9: "Emit the round number as a length-one prefix on each wire payload,
then the self-describing body." -/

/-- `serialize_with_round`. -/
def serializeWithRound (round : ℕ) (message : List ℕ) : List ℕ :=
  round :: message

/-- `deserialize_with_round`. -/
def deserializeWithRound (messageBytes : List ℕ) : Option (ℕ × List ℕ) :=
  match messageBytes with
  | [] => none
  | r :: body => some (r, body)

/-! ## The session

`Session<S: SessionState>` from `src/synedrion/src/sessions/generic.rs`.
The `SessionState` implementations are in `sessions/states.rs`, which is
not under `src/`; modelled from the spec (§4.2): the state holds the
current round's `Stage`, delegates `receive_current_stage` to
`Stage::receive`, and reports the current round number and the total
number of rounds. -/

structure SessionM (M P : Type) where
  index : ℕ
  numParties : ℕ
  /-- The cache of messages that arrived one round ahead
  (`next_stage_messages`). -/
  nextStageMessages : List (ℕ × List ℕ)
  stage : StageM M P
  /-- `state.current_stage_num()` (a `u8` in the source; round numbers
  never exceed the small total round count, so `ℕ` is faithful). -/
  stageNum : ℕ
  /-- `state.stages_num()`. -/
  stagesNum : ℕ

/-- `Session::receive`: decode the framing tag, then dispatch — cache a
message for the next round, hand a message for the current round to the
stage, and refuse anything else as out of order. -/
def SessionM.receive {M P : Type} (s : SessionM M P) (frm : ℕ) (messageBytes : List ℕ) :
    Except ErrorM Unit × SessionM M P :=
  match deserializeWithRound messageBytes with
  | none => (.error (.theirFault frm .deserializationError), s)
  | some (stage, body) =>
      if stage = s.stageNum + 1 ∧ stage ≤ s.stagesNum then
        (.ok (), { s with nextStageMessages := s.nextStageMessages ++ [(frm, body)] })
      else if stage = s.stageNum then
        let r := s.stage.receive frm body
        (r.1, { s with stage := r.2 })
      else
        (.error (.theirFault frm (.outOfOrderMessage s.stageNum stage)), s)

/-- `Session::receive_cached_message`: pop the most recently cached
message (`Vec::pop` takes the last element) and hand it to the current
stage. -/
def SessionM.receiveCachedMessage {M P : Type} (s : SessionM M P) :
    Except ErrorM Unit × SessionM M P :=
  match s.nextStageMessages.getLast? with
  | none => (.error (.myFault (.invalidState "No more cached messages left")), s)
  | some (frm, messageBytes) =>
      let r := s.stage.receive frm messageBytes
      (r.1, { s with stage := r.2, nextStageMessages := s.nextStageMessages.dropLast })

/-- `Session::get_messages`: serialize the round's outgoing payload and
prepend the current round number as the framing tag. -/
def SessionM.getMessages {M P : Type} (s : SessionM M P) :
    Except ErrorM ToSendM × SessionM M P :=
  let r := s.stage.getMessages s.numParties s.index
  match r.1 with
  | .error e => (.error (.myFault e), { s with stage := r.2 })
  | .ok toSend =>
      let framed : ToSendM :=
        match toSend with
        | .broadcast msg => .broadcast (serializeWithRound s.stageNum msg)
        | .direct msgs =>
            .direct (msgs.map fun p => (p.1, serializeWithRound s.stageNum p.2))
      (.ok framed, { s with stage := r.2 })

/-- `Session::has_cached_messages`. -/
def SessionM.hasCachedMessages {M P : Type} (s : SessionM M P) : Bool :=
  !s.nextStageMessages.isEmpty

/-! ## The curve adapter (`src/src/tools/group.rs`)

The backend scalar type is the field of integers modulo the order of
secp256k1; points are kept in discrete-logarithm representation (see the
header).  The definitions below are generic in the modulus `m` so that
small instances can be evaluated; the implementation's instance is
`m = secpOrder`. -/

/-- The order of the secp256k1 group (the modulus of `k256::Scalar`). -/
def secpOrder : ℕ :=
  115792089237316195423570985008687907852837564279074904382605163141518161494337

instance : NeZero secpOrder := ⟨by decide⟩

/-- `n >> 1` for the curve order: the threshold of `IsHigh` on backend
scalars (`s` is high iff `s.val > halfOrder`). -/
def halfOrder : ℕ := (secpOrder - 1) / 2

/-- `Scalar::normalize`: negate a scalar that is in the high half of the
order (`if self.0.is_high() { -self } else { *self }`). -/
def normalize (s : ZMod secpOrder) : ZMod secpOrder :=
  if halfOrder < s.val then -s else s

/-- `Scalar::invert`: the backend returns a `CtOption` that is `none`
exactly on zero. -/
def invertScalar {m : ℕ} (s : ZMod m) : Option (ZMod m) :=
  if s = 0 then none else some s⁻¹

/-- `Signature` (`src/src/tools/group.rs`): a wrapped pair of curve
scalars. -/
structure SignatureM where
  r : ZMod secpOrder
  s : ZMod secpOrder
  deriving DecidableEq

/-- `Signature::from_scalars`: the backend (`k256::ecdsa`) accepts
exactly the pairs with both scalars nonzero and stores them unchanged
(the source carries a `TODO: call normalize_s() on the result?` and does
not normalize). -/
def SignatureM.fromScalars (r s : ZMod secpOrder) : Option SignatureM :=
  if r = 0 ∨ s = 0 then none else some ⟨r, s⟩

/-! ## Byte encoding of scalars

`Scalar::to_be_bytes` / `Scalar::try_from_be_bytes` from
`src/src/tools/group.rs`: big-endian 32-byte representation, rejecting
inputs of the wrong length and values at or above the modulus. -/

/-- Big-endian digits, most significant first (`k` bytes). -/
def beBytes : ℕ → ℕ → List ℕ
  | 0, _ => []
  | Nat.succ w, n => n / 256 ^ w :: beBytes w (n % 256 ^ w)

/-- The value of a big-endian byte list. -/
def beVal : List ℕ → ℕ
  | [] => 0
  | b :: rest => b * 256 ^ rest.length + beVal rest

/-- `Scalar::to_be_bytes`. -/
def scalarToBeBytes {m : ℕ} [NeZero m] (s : ZMod m) : List ℕ :=
  beBytes 32 s.val

/-- `Scalar::try_from_be_bytes` (`from_repr_vartime`): the length must be
exactly 32, the entries must be bytes, and the value must be a canonical
scalar (below the modulus). -/
def scalarTryFromBeBytes (m : ℕ) (l : List ℕ) : Option (ZMod m) :=
  if l.length = 32 ∧ (∀ b ∈ l, b < 256) ∧ beVal l < m then some ((beVal l : ℕ) : ZMod m)
  else none

/-- Compressed-point encoding.  Modelled from the spec (§4.2: "33-byte
compressed points"): the byte-level SEC1 encoding belongs to the external
ECC backend, so it is abstracted as an injective 33-byte representation
of the point (tag byte then the 32-byte representative). -/
def pointToCompressedBytes {m : ℕ} [NeZero m] (p : ZMod m) : List ℕ :=
  2 :: beBytes 32 p.val

/-- Partial inverse of `pointToCompressedBytes`. -/
def pointTryFromCompressedBytes (m : ℕ) (l : List ℕ) : Option (ZMod m) :=
  match l with
  | tag :: rest =>
      if tag = 2 ∧ rest.length = 32 ∧ (∀ b ∈ rest, b < 256) ∧ beVal rest < m then
        some ((beVal rest : ℕ) : ZMod m)
      else none
  | [] => none

/-! ## Key shares (`src/src/sessions/generic.rs`)

`KeyShare<I, P>` has public fields `id`, `secret`, `public`.  The
per-party public data (`KeySharePublic`, defined in `protocols/common.rs`
which is not under `src/`) is modelled from the spec (§3): the public
share point `x`, the party's Paillier public key and its ring-Pedersen
parameters (the latter two abstracted as identifiers, they are not used
by the claims). -/

structure KeySharePublicM where
  /-- `X_j = x_j·G`, in discrete-log representation. -/
  x : ZMod secpOrder
  paillierPk : ℕ
  rpParams : ℕ
  deriving DecidableEq

structure KeyShareM where
  id : ℕ
  /-- The secret share `x_i` (the Paillier secret key of `KeyShareSecret`
  is irrelevant to the claims). -/
  secretShare : ZMod secpOrder
  /-- The values of the `public` map, in key order. -/
  public : List KeySharePublicM
  deriving DecidableEq

/-- `KeyShare::verifying_key_as_point`:
`self.public.values().map(|p| p.x).sum()`. -/
def KeyShareM.verifyingKeyAsPoint (ks : KeyShareM) : ZMod secpOrder :=
  (ks.public.map (fun p => p.x)).sum

/-- `Point::to_verifying_key`: the backend converts a point into a
`VerifyingKey` exactly when it is not the identity.  (Not under `src/`;
modelled from the `TODO` in `KeyShare::verifying_key`: "the sum of public
keys does not evaluate to the infinity point".)  The verifying key is
represented by the point itself. -/
def pointToVerifyingKey (p : ZMod secpOrder) : Option (ZMod secpOrder) :=
  if p = 0 then none else some p

/-- `KeyShare::verifying_key`:
`self.verifying_key_as_point().to_verifying_key().unwrap()`; the unwrap
panic is modelled as `none`. -/
def KeyShareM.verifyingKey (ks : KeyShareM) : Option (ZMod secpOrder) :=
  pointToVerifyingKey ks.verifyingKeyAsPoint

/-! ## Ideal Paillier ciphertexts

Modelled from the spec: the Paillier backend is explicitly out of scope
("consumed as primitives", spec §1), so a ciphertext is its public key
together with its plaintext, and the homomorphic operations act on the
plaintext exactly as spec §4.3 describes (`⊙` is homomorphic scalar
multiplication by a signed integer, `⊕` is homomorphic addition).  The
randomizer arguments of the source are dropped: they do not influence
plaintexts. -/

structure CiphertextM where
  pk : ℕ
  pt : ℤ
  deriving DecidableEq, Repr

/-- `Ciphertext::new_with_randomizer` / `new_with_randomizer_signed`. -/
def encWithPk (pk : ℕ) (value : ℤ) : CiphertextM := ⟨pk, value⟩

/-- `Ciphertext::homomorphic_mul` (by a signed integer). -/
def CiphertextM.homomorphicMul (c : CiphertextM) (factor : ℤ) : CiphertextM :=
  ⟨c.pk, c.pt * factor⟩

/-- `Ciphertext::homomorphic_add`. -/
def CiphertextM.homomorphicAdd (c d : CiphertextM) : CiphertextM :=
  ⟨c.pk, c.pt + d.pt⟩

/-- `Ciphertext::decrypt_signed`. -/
def CiphertextM.decryptSigned (c : CiphertextM) : ℤ := c.pt

/-- `Signed::from_scalar` / `uint_from_scalar`: the (non-negative)
integer representative of a curve scalar. -/
def signedFromScalar {m : ℕ} (s : ZMod m) : ℤ := (s.val : ℤ)

/-- `Signed::to_scalar`: reduction of a signed integer modulo the curve
order. -/
def signedToScalar (m : ℕ) (z : ℤ) : ZMod m := (z : ZMod m)

/-- `Scalar::mul_by_generator` in discrete-log representation. -/
def mulByGenerator {m : ℕ} (s : ZMod m) : ZMod m := s

/-! ## Ideal sigma protocols

Modelled from the spec (§4.5): the `cggmp21::sigma` module is not under
`src/`.  Every proof is non-interactive, bound by Fiat–Shamir to its
public statement and to the auxiliary data `(shared randomness, prover
index)`; it is modelled as the record of the statement it was generated
for, and verification compares that record with the statement being
checked.  An honestly generated proof therefore verifies, and a proof
verifies only for the exact statement it attests. -/

/-- `EncProof`: the plaintext of `K` is in range under `pk`
(statement: `pk`, `K`, the verifier's ring-Pedersen parameters, `aux`). -/
structure EncProofM where
  pk : ℕ
  capK : CiphertextM
  rp : ℕ
  aux : ℕ × ℕ
  deriving DecidableEq, Repr

/-- `EncProof::random(rng, secret, rho, sk, aux_rp, aux)`:
the attested ciphertext is `Enc_pk(secret; rho)`. -/
def EncProofM.random (secret : ℤ) (sk : ℕ) (rp : ℕ) (aux : ℕ × ℕ) : EncProofM :=
  ⟨sk, encWithPk sk secret, rp, aux⟩

/-- `EncProof::verify(pk, K, aux_rp, aux)`. -/
def EncProofM.verify (p : EncProofM) (pk : ℕ) (capK : CiphertextM) (rp : ℕ)
    (aux : ℕ × ℕ) : Prop :=
  p = ⟨pk, capK, rp, aux⟩

instance (p : EncProofM) (pk : ℕ) (capK : CiphertextM) (rp : ℕ) (aux : ℕ × ℕ) :
    Decidable (p.verify pk capK rp aux) := by
  unfold EncProofM.verify; infer_instance

/-- `AffGProof`: `D = x ⊙ C ⊕ Enc_pk0(-y)`, `F = Enc_pk1(y)` and
`X = x·G` (spec §4.5 with the sign convention of the protocol, which
applies the affine transform `x·z − y`). -/
structure AffGProofM (m : ℕ) where
  pk0 : ℕ
  pk1 : ℕ
  capC : CiphertextM
  capD : CiphertextM
  capF : CiphertextM
  capX : ZMod m
  rp : ℕ
  aux : ℕ × ℕ
  deriving DecidableEq

/-- `AffGProof::random(rng, x, y, s, r, pk0, pk1, C, aux_rp, aux)`. -/
def AffGProofM.random (m : ℕ) (x y : ℤ) (pk0 pk1 : ℕ) (capC : CiphertextM)
    (rp : ℕ) (aux : ℕ × ℕ) : AffGProofM m :=
  ⟨pk0, pk1, capC, (capC.homomorphicMul x).homomorphicAdd (encWithPk pk0 (-y)),
    encWithPk pk1 y, (x : ZMod m), rp, aux⟩

/-- `AffGProof::verify(pk0, pk1, C, D, F, X, aux_rp, aux)`. -/
def AffGProofM.verify {m : ℕ} (p : AffGProofM m) (pk0 pk1 : ℕ)
    (capC capD capF : CiphertextM) (capX : ZMod m) (rp : ℕ) (aux : ℕ × ℕ) : Prop :=
  p = ⟨pk0, pk1, capC, capD, capF, capX, rp, aux⟩

instance {m : ℕ} (p : AffGProofM m) (pk0 pk1 : ℕ) (capC capD capF : CiphertextM)
    (capX : ZMod m) (rp : ℕ) (aux : ℕ × ℕ) :
    Decidable (p.verify pk0 pk1 capC capD capF capX rp aux) := by
  unfold AffGProofM.verify; infer_instance

/-- `LogStarProof`: `C = Enc_pk(x)` and `X = x·B` for the given base
`B` (spec §4.5). -/
structure LogStarProofM (m : ℕ) where
  pk : ℕ
  capC : CiphertextM
  base : ZMod m
  capX : ZMod m
  rp : ℕ
  aux : ℕ × ℕ
  deriving DecidableEq

/-- `LogStarProof::random(rng, x, rho, pk, base, aux_rp, aux)`. -/
def LogStarProofM.random (m : ℕ) (x : ℤ) (pk : ℕ) (base : ZMod m) (rp : ℕ)
    (aux : ℕ × ℕ) : LogStarProofM m :=
  ⟨pk, encWithPk pk x, base, (x : ZMod m) * base, rp, aux⟩

/-- `LogStarProof::verify(pk, C, base, X, aux_rp, aux)`. -/
def LogStarProofM.verify {m : ℕ} (p : LogStarProofM m) (pk : ℕ) (capC : CiphertextM)
    (base capX : ZMod m) (rp : ℕ) (aux : ℕ × ℕ) : Prop :=
  p = ⟨pk, capC, base, capX, rp, aux⟩

instance {m : ℕ} (p : LogStarProofM m) (pk : ℕ) (capC : CiphertextM)
    (base capX : ZMod m) (rp : ℕ) (aux : ℕ × ℕ) :
    Decidable (p.verify pk capC base capX rp aux) := by
  unfold LogStarProofM.verify; infer_instance

/-- `MulProof`: `C` is the homomorphic product of the plaintext of `X`
and the ciphertext `Y`, all under `pk` (spec §4.5). -/
structure MulProofM where
  pk : ℕ
  capX : CiphertextM
  capY : CiphertextM
  capC : CiphertextM
  aux : ℕ × ℕ
  deriving DecidableEq, Repr

/-- `MulProof::random(rng, x, rho_x, rho_y, rho_c, pk, Y, aux)`. -/
def MulProofM.random (x : ℤ) (pk : ℕ) (capY : CiphertextM) (aux : ℕ × ℕ) : MulProofM :=
  ⟨pk, encWithPk pk x, capY, capY.homomorphicMul x, aux⟩

/-- `MulProof::verify(pk, X, Y, C, aux)`. -/
def MulProofM.verify (p : MulProofM) (pk : ℕ) (capX capY capC : CiphertextM)
    (aux : ℕ × ℕ) : Prop :=
  p = ⟨pk, capX, capY, capC, aux⟩

instance (p : MulProofM) (pk : ℕ) (capX capY capC : CiphertextM) (aux : ℕ × ℕ) :
    Decidable (p.verify pk capX capY capC aux) := by
  unfold MulProofM.verify; infer_instance

/-- `DecProof`: the decryption of `C` reduces to the given scalar
(spec §4.5). -/
structure DecProofM (m : ℕ) where
  pk : ℕ
  scalar : ZMod m
  capC : CiphertextM
  rp : ℕ
  aux : ℕ × ℕ
  deriving DecidableEq

/-- `DecProof::random(rng, z, rho, pk, rp_params, aux)`. -/
def DecProofM.random (m : ℕ) (z : ℤ) (pk rp : ℕ) (aux : ℕ × ℕ) : DecProofM m :=
  ⟨pk, (z : ZMod m), encWithPk pk z, rp, aux⟩

/-- `DecProof::verify(pk, scalar, C, rp_params, aux)`. -/
def DecProofM.verify {m : ℕ} (p : DecProofM m) (pk : ℕ) (scalar : ZMod m)
    (capC : CiphertextM) (rp : ℕ) (aux : ℕ × ℕ) : Prop :=
  p = ⟨pk, scalar, capC, rp, aux⟩

instance {m : ℕ} (p : DecProofM m) (pk : ℕ) (scalar : ZMod m) (capC : CiphertextM)
    (rp : ℕ) (aux : ℕ × ℕ) : Decidable (p.verify pk scalar capC rp aux) := by
  unfold DecProofM.verify; infer_instance

/-! ## The presigning rounds
(`src/synedrion/src/cggmp21/protocols/presigning.rs`)

Party `i` holds the ephemeral scalar share `k i` and the mask `γ i`
(sampled in `Round1Part1::new`), the secret key share `x i`, and the
masks `β i j` / `β' i j` (`beta`, `beta_hat` of `Round2::new`, sampled
for every recipient `j`).  The shared randomness is abstracted as a
number `sr`.  Party indexes double as Paillier public keys and as
ring-Pedersen parameter identifiers; the public share of party `j` is
`x j` in discrete-log representation. -/

/-- `Round1Bcast`: the pair `(K_i, G_i)`. -/
structure Round1BcastM where
  kCiphertext : CiphertextM
  gCiphertext : CiphertextM
  deriving DecidableEq, Repr

/-- `Round1Direct`: an `EncProof`. -/
structure Round1DirectM where
  proof : EncProofM
  deriving DecidableEq, Repr

/-- `Round2Direct`. -/
structure Round2DirectM (m : ℕ) where
  gamma : ZMod m
  d : CiphertextM
  dHat : CiphertextM
  f : CiphertextM
  fHat : CiphertextM
  psi : AffGProofM m
  psiHat : AffGProofM m
  psiHatPrime : LogStarProofM m
  deriving DecidableEq

/-- `Round2Payload`. -/
structure Round2PayloadM (m : ℕ) where
  gamma : ZMod m
  alpha : ℤ
  alphaHat : ZMod m
  capD : CiphertextM
  deriving DecidableEq

/-- `Round3Bcast`. -/
structure Round3BcastM (m : ℕ) where
  delta : ZMod m
  bigDelta : ZMod m
  psiHatPPrime : LogStarProofM m
  deriving DecidableEq

/-- `Round3Payload`. -/
structure Round3PayloadM (m : ℕ) where
  delta : ZMod m
  bigDelta : ZMod m
  deriving DecidableEq

/-- `PresigningData`: the presigning triple `(R, k_i, χ_i)`. -/
structure PresigningDataM (m : ℕ) where
  nonce : ZMod m
  ephemeralScalarShare : ZMod m
  productShare : ZMod m
  deriving DecidableEq

/-- The fields of `Round3<P>` that `Round3::finalize` reads. -/
structure Round3StateM (m : ℕ) where
  numParties : ℕ
  myIdx : ℕ
  sharedRandomness : ℕ
  /-- `context.ephemeral_scalar_share` (`k_i`). -/
  ephemeralScalarShare : ZMod m
  /-- `context.gamma` (`γ_i`). -/
  gamma : ZMod m
  /-- The signed `delta` computed in `Round2::finalize`. -/
  delta : ℤ
  productShare : ZMod m
  bigDelta : ZMod m
  bigGamma : ZMod m
  kCiphertexts : ℕ → CiphertextM
  gCiphertexts : ℕ → CiphertextM
  /-- `cap_ds`: the ciphertext `D_{j,i}` received from each `j ≠ i`. -/
  capDs : ℕ → CiphertextM
  /-- The `cap_f` of `round2_protocols`: `F_{i,j}` for each `j ≠ i`. -/
  capFs : ℕ → CiphertextM

/-- The three ways `Round3::finalize` can end: a presigning result, the
terminal `FinalizeError::Unspecified("Invalid Delta")`, or a panic (the
`unwrap` of the inversion, or a failed `assert!` on the identification
proofs). -/
inductive Round3OutcomeM (m : ℕ) where
  | result (data : PresigningDataM m)
  | invalidDelta
  | panicked
  deriving DecidableEq

/-- The presigning data of a successful outcome, `none` otherwise. -/
def Round3OutcomeM.toData? {m : ℕ} : Round3OutcomeM m → Option (PresigningDataM m)
  | .result d => some d
  | .invalidDelta => none
  | .panicked => none

/-- The summed `delta` of `Round3::finalize`:
`deltas.iter().sum() + self.delta.to_scalar()`. -/
def round3DeltaSum {m : ℕ} (st : Round3StateM m) (payloads : List (Round3PayloadM m)) :
    ZMod m :=
  (payloads.map (fun p => p.delta)).sum + signedToScalar m st.delta

/-- The summed `big_delta` of `Round3::finalize`:
`big_deltas.iter().sum() + self.big_delta`. -/
def round3BigDeltaSum {m : ℕ} (st : Round3StateM m) (payloads : List (Round3PayloadM m)) :
    ZMod m :=
  (payloads.map (fun p => p.bigDelta)).sum + st.bigDelta

/-- The `assert!`-ed verifications of the identification sub-protocol
(the `Mul` proof on `H`, and one `Dec` proof per other party on the
aggregate ciphertext `H ⊕ Σ_j (D_{j,i} ⊕ F_{i,j})`). -/
def round3IdentChecks {m : ℕ} (st : Round3StateM m) : Prop :=
  let pk := st.myIdx
  let capH := encWithPk pk
    (signedFromScalar st.ephemeralScalarShare * signedFromScalar st.gamma)
  let aux := (st.sharedRandomness, st.myIdx)
  let pMul := MulProofM.random (signedFromScalar st.ephemeralScalarShare) pk
    (st.gCiphertexts st.myIdx) aux
  pMul.verify pk (st.kCiphertexts st.myIdx) (st.gCiphertexts st.myIdx) capH aux ∧
  (let range := (List.range st.numParties).filter (fun j => j ≠ st.myIdx)
   let ciphertext := range.foldl
     (fun c j => (c.homomorphicAdd (st.capDs j)).homomorphicAdd (st.capFs j)) capH
   ∀ j ∈ range,
     (DecProofM.random m st.delta pk j aux).verify pk (signedToScalar m st.delta)
       ciphertext j aux)

instance {m : ℕ} (st : Round3StateM m) : Decidable (round3IdentChecks st) := by
  unfold round3IdentChecks; infer_instance

/-- `Round3::finalize`: sum the received `delta_j` and `Delta_j` together
with the party's own contributions; on `δ·G = Δ` return the presigning
triple with nonce `Γ·δ⁻¹` (panicking when `δ = 0`, because
`delta.invert().unwrap()` unwraps a `CtOption` that is `none` at zero);
otherwise construct and assert the `Mul` and `Dec` identification proofs
and fail with "Invalid Delta". -/
def round3Finalize {m : ℕ} (st : Round3StateM m) (payloads : List (Round3PayloadM m)) :
    Round3OutcomeM m :=
  if mulByGenerator (round3DeltaSum st payloads) = round3BigDeltaSum st payloads then
    match invertScalar (round3DeltaSum st payloads) with
    | some dInv => .result ⟨st.bigGamma * dInv, st.ephemeralScalarShare, st.productShare⟩
    | none => .panicked
  else
    if round3IdentChecks st then .invalidDelta else .panicked

section PresigningRun

variable (m : ℕ) (n : ℕ) (sr : ℕ) (k γ x : Fin n → ZMod m) (β β' : Fin n → Fin n → ℤ)

/-- `K_i = Enc_{pk_i}(k_i)` (from `Round1Part1::new`). -/
def kCiphertextOf (i : Fin n) : CiphertextM :=
  encWithPk i (signedFromScalar (k i))

/-- `G_i = Enc_{pk_i}(γ_i)` (from `Round1Part1::new`). -/
def gCiphertextOf (i : Fin n) : CiphertextM :=
  encWithPk i (signedFromScalar (γ i))

/-- The round-1a broadcast of party `i`. -/
def round1Bcast (i : Fin n) : Round1BcastM :=
  ⟨kCiphertextOf m n k i, gCiphertextOf m n γ i⟩

/-- `Round1Part1::verify_received`: accepts anything (`Ok(msg)`). -/
def round1Part1Verify (_frm : Fin n) (msg : Round1BcastM) : Except String Round1BcastM :=
  .ok msg

/-- The round-1b direct message from `i` to `recipient`: an `EncProof`
for `K_i` under the recipient's ring-Pedersen parameters, with auxiliary
data `(shared randomness, recipient index)`. -/
def round1Direct (i recipient : Fin n) : Round1DirectM :=
  ⟨EncProofM.random (signedFromScalar (k i)) i recipient (sr, recipient)⟩

/-- `Round1Part2::verify_received` at party `me` for a message from
`frm`. -/
def round1Part2Verify (me frm : Fin n) (msg : Round1DirectM) : Except String Unit :=
  if msg.proof.verify frm (kCiphertextOf m n k frm) me (sr, me) then .ok ()
  else .error "Failed to verify EncProof"

/-- `D_{i,j} = γ_i ⊙ K_j ⊕ Enc_{pk_j}(-β_{i,j})` (from
`Round2::to_send`). -/
def capDOf (i j : Fin n) : CiphertextM :=
  ((kCiphertextOf m n k j).homomorphicMul (signedFromScalar (γ i))).homomorphicAdd
    (encWithPk j (-β i j))

/-- `F_{i,j} = Enc_{pk_i}(β_{i,j})` (the `cap_f` of `Round2Protocol`). -/
def capFOf (i j : Fin n) : CiphertextM :=
  encWithPk i (β i j)

/-- `D̂_{i,j} = x_i ⊙ K_j ⊕ Enc_{pk_j}(-β̂_{i,j})`. -/
def capDHatOf (i j : Fin n) : CiphertextM :=
  ((kCiphertextOf m n k j).homomorphicMul (signedFromScalar (x i))).homomorphicAdd
    (encWithPk j (-β' i j))

/-- `F̂_{i,j} = Enc_{pk_i}(β̂_{i,j})`. -/
def capFHatOf (i j : Fin n) : CiphertextM :=
  encWithPk i (β' i j)

/-- The round-2 direct message from `i` to `j` (`Round2::to_send`). -/
def round2Direct (i j : Fin n) : Round2DirectM m where
  gamma := mulByGenerator (γ i)
  d := capDOf m n k γ β i j
  dHat := capDHatOf m n k x β' i j
  f := capFOf n β i j
  fHat := capFHatOf n β' i j
  psi := AffGProofM.random m (signedFromScalar (γ i)) (β i j) j i
    (kCiphertextOf m n k j) j (sr, i)
  psiHat := AffGProofM.random m (signedFromScalar (x i)) (β' i j) j i
    (kCiphertextOf m n k j) j (sr, i)
  psiHatPrime := LogStarProofM.random m (signedFromScalar (γ i)) i 1 j (sr, i)

/-- `Round2::verify_received` at party `me` for a message from `frm`:
verify `ψ`, `ψ̂`, `ψ̂'` in that order (failing with the corresponding
`VerificationFail` string), then decrypt `α` and `α̂`.  (The
`assert_bound_usize` on `α` is a representation detail of the
out-of-scope `Signed` integer type and has no effect on in-range honest
values.) -/
def round2Verify (me frm : Fin n) (msg : Round2DirectM m) :
    Except String (Round2PayloadM m) :=
  let aux : ℕ × ℕ := (sr, frm)
  let bigX : ZMod m := x frm
  if ¬ msg.psi.verify me frm (kCiphertextOf m n k me) msg.d msg.f msg.gamma me aux then
    .error "Failed to verify AffGProof (psi)"
  else if ¬ msg.psiHat.verify me frm (kCiphertextOf m n k me) msg.dHat msg.fHat bigX me aux then
    .error "Failed to verify AffGProof (psi_hat)"
  else if ¬ msg.psiHatPrime.verify frm (gCiphertextOf m n γ frm) 1 msg.gamma me aux then
    .error "Failed to verify LogStarProof"
  else
    .ok { gamma := msg.gamma, alpha := msg.d.decryptSigned,
          alphaHat := signedToScalar m msg.dHat.decryptSigned, capD := msg.d }

/-- The payload that `Round2::verify_received` extracts from the honest
message of `frm` to `me`. -/
def round2PayloadOf (frm me : Fin n) : Round2PayloadM m where
  gamma := mulByGenerator (γ frm)
  alpha := (capDOf m n k γ β frm me).decryptSigned
  alphaHat := signedToScalar m (capDHatOf m n k x β' frm me).decryptSigned
  capD := capDOf m n k γ β frm me

/-- `Round2::finalize` at party `i` on the honest payloads: the fields
of the `Round3` state. -/
def round2FinalizeSt (i : Fin n) : Round3StateM m :=
  let bigGamma : ZMod m :=
    (∑ j ∈ Finset.univ.erase i, (round2PayloadOf m n k γ x β β' j i).gamma) +
      mulByGenerator (γ i)
  { numParties := n
    myIdx := i
    sharedRandomness := sr
    ephemeralScalarShare := k i
    gamma := γ i
    delta := signedFromScalar (γ i) * signedFromScalar (k i) +
      (∑ j ∈ Finset.univ.erase i, (round2PayloadOf m n k γ x β β' j i).alpha) +
      (∑ j ∈ Finset.univ.erase i, β i j)
    productShare := x i * k i +
      (∑ j ∈ Finset.univ.erase i, (round2PayloadOf m n k γ x β β' j i).alphaHat) +
      signedToScalar m (∑ j ∈ Finset.univ.erase i, β' i j)
    bigDelta := bigGamma * k i
    bigGamma := bigGamma
    kCiphertexts := fun j => if h : j < n then kCiphertextOf m n k ⟨j, h⟩ else ⟨j, 0⟩
    gCiphertexts := fun j => if h : j < n then gCiphertextOf m n γ ⟨j, h⟩ else ⟨j, 0⟩
    capDs := fun j => if h : j < n then capDOf m n k γ β ⟨j, h⟩ i else ⟨j, 0⟩
    capFs := fun j => if h : j < n then capFOf n β i ⟨j, h⟩ else ⟨j, 0⟩ }

/-- The round-3 message from `i` to `j` (`Round3::to_send`). -/
def round3Bcast (i j : Fin n) : Round3BcastM m :=
  let st := round2FinalizeSt m n sr k γ x β β' i
  { delta := signedToScalar m st.delta
    bigDelta := st.bigDelta
    psiHatPPrime := LogStarProofM.random m (signedFromScalar (k i)) i st.bigGamma j (sr, i) }

/-- `Round3::verify_received` at party `me` for a message from `frm`. -/
def round3Verify (me frm : Fin n) (msg : Round3BcastM m) :
    Except String (Round3PayloadM m) :=
  let st := round2FinalizeSt m n sr k γ x β β' me
  if ¬ msg.psiHatPPrime.verify frm (kCiphertextOf m n k frm) st.bigGamma msg.bigDelta
      me (sr, frm) then
    .error "Failed to verify Log-Star proof"
  else
    .ok { delta := msg.delta, bigDelta := msg.bigDelta }

/-- The payload that `Round3::verify_received` extracts from the honest
message of `frm` to `me`. -/
def round3PayloadOf (frm me : Fin n) : Round3PayloadM m :=
  ⟨(round3Bcast m n sr k γ x β β' frm me).delta,
    (round3Bcast m n sr k γ x β β' frm me).bigDelta⟩

/-- All verifications of an honest run: every round-1b proof, every
round-2 message and every round-3 message verifies at every recipient
and yields the honest payload. -/
def presigningChecks : Prop :=
  (∀ i j : Fin n, j ≠ i →
    round1Part2Verify m n sr k i j (round1Direct m n sr k j i) = .ok ()) ∧
  (∀ i j : Fin n, j ≠ i →
    round2Verify m n sr k γ x i j (round2Direct m n sr k γ x β β' j i) =
      .ok (round2PayloadOf m n k γ x β β' j i)) ∧
  (∀ i j : Fin n, j ≠ i →
    round3Verify m n sr k γ x β β' i j (round3Bcast m n sr k γ x β β' j i) =
      .ok (round3PayloadOf m n sr k γ x β β' j i))

instance : Decidable (presigningChecks m n sr k γ x β β') := by
  unfold presigningChecks; infer_instance

/-- The round-3 payload list party `i` accumulates (one entry per other
party). -/
def round3PayloadListFor (i : Fin n) : List (Round3PayloadM m) :=
  ((List.finRange n).filter (fun j => j ≠ i)).map
    (fun j => round3PayloadOf m n sr k γ x β β' j i)

/-- An honest end-to-end presigning run (the `execute_presigning` test
flow): every message of rounds 1a, 1b, 2 and 3 is delivered and
verified, then every party finalizes round 3.  The run completes iff all
verifications succeed and every `Round3::finalize` produces a result. -/
def presigningRun : Option (List (PresigningDataM m)) :=
  if presigningChecks m n sr k γ x β β' then
    (List.ofFn fun i : Fin n =>
      round3Finalize (round2FinalizeSt m n sr k γ x β β' i)
        (round3PayloadListFor m n sr k γ x β β' i)).mapM Round3OutcomeM.toData?
  else none

end PresigningRun

section SigningRun

variable (m : ℕ) (n : ℕ) (sr : ℕ) (k γ x : Fin n → ZMod m) (β β' : Fin n → Fin n → ℤ)

/-- The signing round.  Modelled from the spec (§4.4): `signing.rs` is
not under `src/`.  Given the presigning triple and the prehashed message
scalar `μ`: `r = x-coordinate-of(R)` reduced modulo the curve order (the
x-coordinate belongs to the external ECC backend and is abstracted as
the function `ξ` on points), each party broadcasts
`σ_i = k_i·μ + r·χ_i` and outputs `(r, Σ σ_j)`. -/
def signingRound (ξ : ZMod m → ZMod m) (μ : ZMod m) (datas : List (PresigningDataM m)) :
    List (ZMod m × ZMod m) :=
  datas.map fun d =>
    let r := ξ d.nonce
    (r, (datas.map fun e =>
      e.ephemeralScalarShare * μ + ξ e.nonce * e.productShare).sum)

/-- The interactive-signing pipeline
(`protocols/interactive_signing.rs`): presigning rounds 1–3 followed by
the signing round; a signature list is produced only if presigning
completed. -/
def interactiveSigningRun (ξ : ZMod m → ZMod m) (μ : ZMod m) :
    Option (List (ZMod m × ZMod m)) :=
  (presigningRun m n sr k γ x β β').map (signingRound m ξ μ)

/-- The round-2 messages of the E3 scenario: the message from `s` to `r`
carries the proof `ψ` in place of the honest `ψ_{s,r}`; every other
message is honest. -/
def round2DirectTampered (s r : Fin n) (ψ : AffGProofM m) (i j : Fin n) :
    Round2DirectM m :=
  if i = s ∧ j = r then { round2Direct m n sr k γ x β β' i j with psi := ψ }
  else round2Direct m n sr k γ x β β' i j

/-- The verifications of the E3 run (tampered round-2 message from `s`
to `r`). -/
def presigningChecksTampered (s r : Fin n) (ψ : AffGProofM m) : Prop :=
  (∀ i j : Fin n, j ≠ i →
    round1Part2Verify m n sr k i j (round1Direct m n sr k j i) = .ok ()) ∧
  (∀ i j : Fin n, j ≠ i →
    round2Verify m n sr k γ x i j (round2DirectTampered m n sr k γ x β β' s r ψ j i) =
      .ok (round2PayloadOf m n k γ x β β' j i)) ∧
  (∀ i j : Fin n, j ≠ i →
    round3Verify m n sr k γ x β β' i j (round3Bcast m n sr k γ x β β' j i) =
      .ok (round3PayloadOf m n sr k γ x β β' j i))

instance (s r : Fin n) (ψ : AffGProofM m) :
    Decidable (presigningChecksTampered m n sr k γ x β β' s r ψ) := by
  unfold presigningChecksTampered; infer_instance

/-- The E3 presigning run: as `presigningRun`, but with the tampered
round-2 message; a receive failure anywhere halts the session of the
affected party and with it the whole protocol (the payload fields of the
other messages are unaffected by the tampering). -/
def presigningRunTampered (s r : Fin n) (ψ : AffGProofM m) :
    Option (List (PresigningDataM m)) :=
  if presigningChecksTampered m n sr k γ x β β' s r ψ then
    (List.ofFn fun i : Fin n =>
      round3Finalize (round2FinalizeSt m n sr k γ x β β' i)
        (round3PayloadListFor m n sr k γ x β β' i)).mapM Round3OutcomeM.toData?
  else none

/-- The E3 interactive-signing run. -/
def interactiveSigningRunTampered (s r : Fin n) (ψ : AffGProofM m)
    (ξ : ZMod m → ZMod m) (μ : ZMod m) : Option (List (ZMod m × ZMod m)) :=
  (presigningRunTampered m n sr k γ x β β' s r ψ).map (signingRound m ξ μ)

/-- The `RoundModel` of `Round2<P>` at party `me`, for an arbitrary
codec: `verify_received` mapped over the `PartyIdx` of the sender (the
session layer only calls it with indexes that own an accumulator slot,
hence below `n`). -/
def round2RoundModel (me : Fin n) (enc : Round2DirectM m → List ℕ)
    (dec : List ℕ → Option (Round2DirectM m)) :
    RoundModel (Round2DirectM m) (Round2PayloadM m) where
  enc := enc
  dec := dec
  toSend := .direct (((List.finRange n).filter (fun j => j ≠ me)).map
    (fun j => (j.val, round2Direct m n sr k γ x β β' me j)))
  verify := fun frm msg =>
    if h : frm < n then round2Verify m n sr k γ x me ⟨frm, h⟩ msg
    else .error "invalid sender index"

end SigningRun

/-! ## Message codecs

The source serializes messages with `rmp_serde` (a self-describing
format, external to the repository) over the serde instances of the
field types; the repository's own leaf codecs are the scalar bytes
(`Scalar::to_be_bytes` / `try_from_be_bytes`, modelled above) and the
compressed point bytes.  Composite messages are encoded field by field,
in declaration order, exactly as the serde derive does; each component
decoder is a parser returning the value and the remaining input. -/

/-- Parse a (self-described) natural number. -/
def natParse (l : List ℕ) : Option (ℕ × List ℕ) :=
  match l with
  | [] => none
  | a :: rest => some (a, rest)

/-- Encode a signed integer: sign entry then magnitude. -/
def intEnc (z : ℤ) : List ℕ :=
  (if z < 0 then 1 else 0) :: [z.natAbs]

/-- Parse a signed integer (rejecting the non-canonical "-0"). -/
def intParse (l : List ℕ) : Option (ℤ × List ℕ) :=
  match l with
  | s :: a :: rest =>
      if s = 0 then some ((a : ℤ), rest)
      else if s = 1 ∧ a ≠ 0 then some (-(a : ℤ), rest)
      else none
  | _ => none

/-- Encode a ciphertext (`Ciphertext` serializes its key reference and
its raw value). -/
def ciphertextEnc (c : CiphertextM) : List ℕ :=
  c.pk :: intEnc c.pt

/-- Parse a ciphertext. -/
def ciphertextParse (l : List ℕ) : Option (CiphertextM × List ℕ) := do
  let (pk, rest) ← natParse l
  let (pt, rest) ← intParse rest
  some (⟨pk, pt⟩, rest)

/-- Encode a scalar: the 32 big-endian bytes of `Scalar::to_be_bytes`. -/
def scalarEnc {mm : ℕ} [NeZero mm] (s : ZMod mm) : List ℕ :=
  scalarToBeBytes s

/-- Parse a scalar: split off 32 bytes and apply
`Scalar::try_from_be_bytes`. -/
def scalarParse (mm : ℕ) (l : List ℕ) : Option (ZMod mm × List ℕ) := do
  let v ← scalarTryFromBeBytes mm (l.take 32)
  some (v, l.drop 32)

/-- Encode a `LogStarProof` statement record. -/
def logStarEnc {mm : ℕ} [NeZero mm] (p : LogStarProofM mm) : List ℕ :=
  p.pk :: (ciphertextEnc p.capC ++ scalarEnc p.base ++ scalarEnc p.capX ++
    [p.rp, p.aux.1, p.aux.2])

/-- Parse a `LogStarProof` statement record. -/
def logStarParse (mm : ℕ) (l : List ℕ) : Option (LogStarProofM mm × List ℕ) := do
  let (pk, rest) ← natParse l
  let (capC, rest) ← ciphertextParse rest
  let (base, rest) ← scalarParse mm rest
  let (capX, rest) ← scalarParse mm rest
  let (rp, rest) ← natParse rest
  let (aux1, rest) ← natParse rest
  let (aux2, rest) ← natParse rest
  some (⟨pk, capC, base, capX, rp, (aux1, aux2)⟩, rest)

/-- Encode an `AffGProof` statement record. -/
def affGEnc {mm : ℕ} [NeZero mm] (p : AffGProofM mm) : List ℕ :=
  p.pk0 :: p.pk1 :: (ciphertextEnc p.capC ++ ciphertextEnc p.capD ++
    ciphertextEnc p.capF ++ scalarEnc p.capX ++ [p.rp, p.aux.1, p.aux.2])

/-- Parse an `AffGProof` statement record. -/
def affGParse (mm : ℕ) (l : List ℕ) : Option (AffGProofM mm × List ℕ) := do
  let (pk0, rest) ← natParse l
  let (pk1, rest) ← natParse rest
  let (capC, rest) ← ciphertextParse rest
  let (capD, rest) ← ciphertextParse rest
  let (capF, rest) ← ciphertextParse rest
  let (capX, rest) ← scalarParse mm rest
  let (rp, rest) ← natParse rest
  let (aux1, rest) ← natParse rest
  let (aux2, rest) ← natParse rest
  some (⟨pk0, pk1, capC, capD, capF, capX, rp, (aux1, aux2)⟩, rest)

/-- Encode an `EncProof` statement record. -/
def encProofEnc (p : EncProofM) : List ℕ :=
  p.pk :: (ciphertextEnc p.capK ++ [p.rp, p.aux.1, p.aux.2])

/-- Parse an `EncProof` statement record. -/
def encProofParse (l : List ℕ) : Option (EncProofM × List ℕ) := do
  let (pk, rest) ← natParse l
  let (capK, rest) ← ciphertextParse rest
  let (rp, rest) ← natParse rest
  let (aux1, rest) ← natParse rest
  let (aux2, rest) ← natParse rest
  some (⟨pk, capK, rp, (aux1, aux2)⟩, rest)

/-- `serialize_message` for `Round1Bcast`. -/
def round1BcastEnc (msg : Round1BcastM) : List ℕ :=
  ciphertextEnc msg.kCiphertext ++ ciphertextEnc msg.gCiphertext

/-- `deserialize_message` for `Round1Bcast`. -/
def round1BcastDec (l : List ℕ) : Option Round1BcastM := do
  let (kc, rest) ← ciphertextParse l
  let (gc, rest) ← ciphertextParse rest
  if rest = [] then some ⟨kc, gc⟩ else none

/-- `serialize_message` for `Round1Direct`. -/
def round1DirectEnc (msg : Round1DirectM) : List ℕ :=
  encProofEnc msg.proof

/-- `deserialize_message` for `Round1Direct`. -/
def round1DirectDec (l : List ℕ) : Option Round1DirectM := do
  let (p, rest) ← encProofParse l
  if rest = [] then some ⟨p⟩ else none

/-- `serialize_message` for `Round2Direct`. -/
def round2DirectEnc {mm : ℕ} [NeZero mm] (msg : Round2DirectM mm) : List ℕ :=
  scalarEnc msg.gamma ++ ciphertextEnc msg.d ++ ciphertextEnc msg.dHat ++
    ciphertextEnc msg.f ++ ciphertextEnc msg.fHat ++ affGEnc msg.psi ++
    affGEnc msg.psiHat ++ logStarEnc msg.psiHatPrime

/-- `deserialize_message` for `Round2Direct`. -/
def round2DirectDec (mm : ℕ) (l : List ℕ) : Option (Round2DirectM mm) := do
  let (gamma, rest) ← scalarParse mm l
  let (d, rest) ← ciphertextParse rest
  let (dHat, rest) ← ciphertextParse rest
  let (f, rest) ← ciphertextParse rest
  let (fHat, rest) ← ciphertextParse rest
  let (psi, rest) ← affGParse mm rest
  let (psiHat, rest) ← affGParse mm rest
  let (psiHatPrime, rest) ← logStarParse mm rest
  if rest = [] then some ⟨gamma, d, dHat, f, fHat, psi, psiHat, psiHatPrime⟩ else none

/-- `serialize_message` for `Round3Bcast`. -/
def round3BcastEnc {mm : ℕ} [NeZero mm] (msg : Round3BcastM mm) : List ℕ :=
  scalarEnc msg.delta ++ scalarEnc msg.bigDelta ++ logStarEnc msg.psiHatPPrime

/-- `deserialize_message` for `Round3Bcast`. -/
def round3BcastDec (mm : ℕ) (l : List ℕ) : Option (Round3BcastM mm) := do
  let (delta, rest) ← scalarParse mm l
  let (bigDelta, rest) ← scalarParse mm rest
  let (p, rest) ← logStarParse mm rest
  if rest = [] then some ⟨delta, bigDelta, p⟩ else none

/-! ## Concrete instances used by the closed evaluation theorems -/

/-- A trivial round (unit message and payload, empty codec). -/
def unitRound : RoundModel Unit Unit where
  enc := fun _ => []
  dec := fun _ => some ()
  toSend := .broadcast ()
  verify := fun _ _ => .ok ()

/-- A two-party stage for party 0 in its receiving state. -/
def stageEx : StageM Unit Unit :=
  ⟨unitRound, some (HoleVecAccum.new Unit 2 0)⟩

/-- A two-party session for party 0 in round 1 of 4. -/
def sessionEx : SessionM Unit Unit :=
  ⟨0, 2, [], stageEx, 1, 4⟩

/-- A session holding one cached message. -/
def sessionCachedEx : SessionM Unit Unit :=
  ⟨0, 2, [(1, [7])], stageEx, 1, 4⟩

/-- Evaluation inputs for a two-party honest presigning run over
`ZMod 5`: `k = γ = x = (1, 0)`, all masks zero. -/
def kEx : Fin 2 → ZMod 5 := ![1, 0]

/-- Zero masks for the evaluation run. -/
def zeroBeta : Fin 2 → Fin 2 → ℤ := fun _ _ => 0

/-- A `Round3` state on which the `δ·G = Δ` check passes with `δ = 0`
(reachable: a malicious party may choose its `k_j` so that `Σ k_j = 0`,
making `Δ` the identity, and send `delta_j` values summing to zero —
`delta_j` is not covered by any round-3 proof). -/
def round3StateCEx : Round3StateM secpOrder where
  numParties := 2
  myIdx := 0
  sharedRandomness := 0
  ephemeralScalarShare := 0
  gamma := 0
  delta := 0
  productShare := 0
  bigDelta := 0
  bigGamma := 0
  kCiphertexts := fun j => ⟨j, 0⟩
  gCiphertexts := fun j => ⟨j, 0⟩
  capDs := fun j => ⟨j, 0⟩
  capFs := fun j => ⟨j, 0⟩

/-- The single received round-3 payload of the counterexample. -/
def round3PayloadsCEx : List (Round3PayloadM secpOrder) := [⟨0, 0⟩]

/-- A `Round3` state on which finalization succeeds (own `delta = 1`,
own `big_delta = Δ = 1·G`, no other parties). -/
def round3StateOkEx : Round3StateM secpOrder where
  numParties := 1
  myIdx := 0
  sharedRandomness := 0
  ephemeralScalarShare := 0
  gamma := 0
  delta := 1
  productShare := 0
  bigDelta := 1
  bigGamma := 0
  kCiphertexts := fun j => ⟨j, 0⟩
  gCiphertexts := fun j => ⟨j, 0⟩
  capDs := fun j => ⟨j, 0⟩
  capFs := fun j => ⟨j, 0⟩

/-- A key share whose public shares sum to the identity point
(`X_0 = 1·G`, `X_1 = -1·G`); the `KeyShare` fields are public, and no
constructor enforces a non-identity sum (the source leaves it as a
`TODO`). -/
def keyShareCEx : KeyShareM :=
  ⟨0, 0, [⟨1, 0, 0⟩, ⟨-1, 1, 1⟩]⟩

/-- A two-party key share with a non-identity verifying key. -/
def keyShareOkEx : KeyShareM :=
  ⟨0, 0, [⟨1, 0, 0⟩, ⟨1, 1, 1⟩]⟩

/-- An `AffGProof` that does not verify for any statement of the
two-party evaluation run. -/
def psiBadEx : AffGProofM 5 :=
  ⟨7, 7, ⟨7, 7⟩, ⟨7, 7⟩, ⟨7, 7⟩, 0, 7, (7, 7)⟩

/-- The tampered round-2 message of the E3 evaluation run (party 0 to
party 1, `psi` replaced by `psiBadEx`). -/
def round2MsgTEx : Round2DirectM 5 :=
  round2DirectTampered 5 2 0 kEx kEx kEx zeroBeta zeroBeta 0 1 psiBadEx 0 1

/-- The round-2 stage of recipient party 1 in the E3 evaluation run. -/
def round2StageEx : StageM (Round2DirectM 5) (Round2PayloadM 5) :=
  ⟨round2RoundModel 5 2 0 kEx kEx kEx zeroBeta zeroBeta 1 round2DirectEnc
    (round2DirectDec 5), some (HoleVecAccum.new (Round2PayloadM 5) 2 1)⟩

/-- A session of the round-3 broadcast round at the implementation's
modulus, used to evaluate the framing of `get_messages`. -/
def round3SessionEx : SessionM (Round3BcastM secpOrder) (Round3PayloadM secpOrder) where
  index := 0
  numParties := 2
  nextStageMessages := []
  stage :=
    ⟨{ enc := round3BcastEnc
       dec := round3BcastDec secpOrder
       toSend := .direct [(1, ⟨1, 2, ⟨0, ⟨0, 0⟩, 3, 4, 0, (0, 0)⟩⟩)]
       verify := fun _ _ => .error "unused" }, none⟩
  stageNum := 4
  stagesNum := 4

/-- The per-party outputs of the honest two-party evaluation run
(`m = 5`, `k = γ = x = (1, 0)`, zero Paillier maskers). -/
def presigningOutFn : Fin 2 → PresigningDataM 5 :=
  ![⟨1, 1, 1⟩, ⟨1, 0, 0⟩]

/-- The output list of the honest two-party evaluation run. -/
def presigningOutEx : List (PresigningDataM 5) :=
  List.ofFn presigningOutFn

/-! ## Helper lemmas on `Stage::receive` -/

theorem HoleVecAccum.get?_isSome_lt {α : Type} (a : HoleVecAccum α) (i : ℕ)
    (slot : Option α) (h : a.get? i = some slot) :
    i ≠ a.hole ∧ i < a.elems.length ∧ a.elems[i]? = some slot := by
  unfold HoleVecAccum.get? at h
  by_cases hi : i = a.hole
  · simp [hi] at h
  · refine ⟨hi, ?_, by simpa [hi] using h⟩
    by_contra hlen
    rw [List.getElem?_eq_none (by omega)] at h
    · simp [hi] at h

theorem HoleVecAccum.get?_set_self {α : Type} (a : HoleVecAccum α) (i : ℕ) (x : α)
    (slot : Option α) (h : a.get? i = some slot) :
    (a.set i x).get? i = some (some x) := by
  obtain ⟨hne, hlt, _⟩ := a.get?_isSome_lt i slot h
  unfold HoleVecAccum.get? HoleVecAccum.set
  simp [hne, List.getElem?_set_self', hlt]

/-- The success case of `Stage::receive`: deserialization succeeds, the
slot is valid and empty, verification succeeds — the payload is stored
in the sender's slot. -/
theorem stageReceive_ok {M P : Type} (s : StageM M P) (frm : ℕ) (b : List ℕ)
    (accum : HoleVecAccum P) (msg : M) (p : P)
    (hac : s.accum = some accum) (hdec : s.round.dec b = some msg)
    (hget : accum.get? frm = some none) (hver : s.round.verify frm msg = .ok p) :
    s.receive frm b = (.ok (), ⟨s.round, some (accum.set frm p)⟩) := by
  simp only [StageM.receive, hac, hdec, hget, hver]

/-- `Stage::receive` when the stage is not in a receiving state. -/
theorem stageReceive_noAccum {M P : Type} (s : StageM M P) (frm : ℕ) (b : List ℕ)
    (hac : s.accum = none) :
    s.receive frm b =
      (.error (.myFault (.invalidState
        "The session is in a sending stage, cannot receive messages")), s) := by
  simp only [StageM.receive, hac]

/-- `Stage::receive` when deserialization fails. -/
theorem stageReceive_decErr {M P : Type} (s : StageM M P) (frm : ℕ) (b : List ℕ)
    (accum : HoleVecAccum P) (hac : s.accum = some accum)
    (hdec : s.round.dec b = none) :
    s.receive frm b = (.error (.theirFault frm .deserializationError), s) := by
  simp only [StageM.receive, hac, hdec]

/-- `Stage::receive` when the sender index has no slot. -/
theorem stageReceive_invalidId {M P : Type} (s : StageM M P) (frm : ℕ) (b : List ℕ)
    (accum : HoleVecAccum P) (msg : M) (hac : s.accum = some accum)
    (hdec : s.round.dec b = some msg) (hget : accum.get? frm = none) :
    s.receive frm b = (.error (.myFault (.invalidId frm)), s) := by
  simp only [StageM.receive, hac, hdec, hget]

/-- `Stage::receive` when the sender's slot is already filled. -/
theorem stageReceive_dup {M P : Type} (s : StageM M P) (frm : ℕ) (b : List ℕ)
    (accum : HoleVecAccum P) (msg : M) (p0 : P) (hac : s.accum = some accum)
    (hdec : s.round.dec b = some msg) (hget : accum.get? frm = some (some p0)) :
    s.receive frm b = (.error (.theirFault frm .duplicateMessage), s) := by
  simp only [StageM.receive, hac, hdec, hget]

/-- `Stage::receive` when the round's verification fails. -/
theorem stageReceive_verFail {M P : Type} (s : StageM M P) (frm : ℕ) (b : List ℕ)
    (accum : HoleVecAccum P) (msg : M) (err : String) (hac : s.accum = some accum)
    (hdec : s.round.dec b = some msg) (hget : accum.get? frm = some none)
    (hver : s.round.verify frm msg = .error err) :
    s.receive frm b = (.error (.theirFault frm (.verificationFail err)), s) := by
  simp only [StageM.receive, hac, hdec, hget, hver]

/-- Inversion of a successful `Stage::receive`. -/
theorem stageReceive_ok_inv {M P : Type} (s : StageM M P) (frm : ℕ) (b : List ℕ)
    (s1 : StageM M P) (h : s.receive frm b = (.ok (), s1)) :
    ∃ accum msg p, s.accum = some accum ∧ s.round.dec b = some msg ∧
      accum.get? frm = some none ∧ s.round.verify frm msg = .ok p ∧
      s1 = ⟨s.round, some (accum.set frm p)⟩ := by
  rcases hac : s.accum with _ | accum
  · rw [stageReceive_noAccum s frm b hac] at h
    simp at h
  rcases hdec : s.round.dec b with _ | msg
  · rw [stageReceive_decErr s frm b accum hac hdec] at h
    simp at h
  rcases hget : accum.get? frm with _ | (_ | p0)
  · rw [stageReceive_invalidId s frm b accum msg hac hdec hget] at h
    simp at h
  · rcases hver : s.round.verify frm msg with err | p
    · rw [stageReceive_verFail s frm b accum msg err hac hdec hget hver] at h
      simp at h
    · rw [stageReceive_ok s frm b accum msg p hac hdec hget hver] at h
      simp only [Prod.mk.injEq] at h
      exact ⟨accum, msg, p, rfl, rfl, hget, hver, h.2.symm⟩
  · rw [stageReceive_dup s frm b accum msg p0 hac hdec hget] at h
    simp at h

/-! ## C9 — `Stage::receive` is atomic on failure -/

/-- C9: whenever `Stage::receive` returns an error (deserialization
failure, invalid sender index, duplicate message, or proof-verification
failure), the accumulator is exactly as it was before the call; and a
message from the same sender that deserializes, finds its empty slot and
verifies is accepted. -/
theorem stage_receive_atomic {M P : Type} (s : StageM M P) (frm : ℕ) (b : List ℕ) :
    (∀ e, (s.receive frm b).1 = .error e → (s.receive frm b).2 = s) ∧
    (∀ accum msg p b2, s.accum = some accum → accum.get? frm = some none →
      s.round.dec b2 = some msg → s.round.verify frm msg = .ok p →
      (s.receive frm b2).1 = .ok ()) := by
  constructor
  · intro e he
    rcases hac : s.accum with _ | accum
    · rw [stageReceive_noAccum s frm b hac]
    rcases hdec : s.round.dec b with _ | msg
    · rw [stageReceive_decErr s frm b accum hac hdec]
    rcases hget : accum.get? frm with _ | (_ | p0)
    · rw [stageReceive_invalidId s frm b accum msg hac hdec hget]
    · rcases hver : s.round.verify frm msg with err | p
      · rw [stageReceive_verFail s frm b accum msg err hac hdec hget hver]
      · rw [stageReceive_ok s frm b accum msg p hac hdec hget hver] at he
        simp at he
    · rw [stageReceive_dup s frm b accum msg p0 hac hdec hget]
  · intro accum msg p b2 hac hget hdec hver
    rw [stageReceive_ok s frm b2 accum msg p hac hdec hget hver]

/-- C9 witness: on the concrete two-party stage, receiving from the own
index 0 fails with `InvalidId` and leaves the stage unchanged, while a
message from party 1 is accepted. -/
theorem stage_receive_atomic_witness :
    (stageEx.receive 0 []).1 = .error (.myFault (.invalidId 0)) ∧
    (stageEx.receive 0 []).2 = stageEx ∧
    (stageEx.receive 1 []).1 = .ok () :=
  ⟨rfl, (stage_receive_atomic stageEx 0 []).1 (.myFault (.invalidId 0)) rfl,
    (stage_receive_atomic stageEx 1 []).2 (HoleVecAccum.new Unit 2 0) () () []
      rfl rfl rfl rfl⟩

/-! ## C6 — duplicate messages are rejected -/

/-- C6: after `Stage::receive` has accepted a message from a sender, a
second message from the same sender (that deserializes) is rejected with
`DuplicateMessage` attributed to that sender, and the state — in
particular the payload stored by the first call — is unchanged. -/
theorem stage_receive_duplicate {M P : Type} (s : StageM M P) (frm : ℕ)
    (b1 b2 : List ℕ) (s1 : StageM M P) (msg2 : M)
    (h1 : s.receive frm b1 = (.ok (), s1)) (hdec2 : s1.round.dec b2 = some msg2) :
    s1.receive frm b2 = (.error (.theirFault frm .duplicateMessage), s1) := by
  obtain ⟨accum, msg, p, hac, hdec, hget, hver, hs1⟩ := stageReceive_ok_inv s frm b1 s1 h1
  have hget1 : (accum.set frm p).get? frm = some (some p) :=
    accum.get?_set_self frm p none hget
  subst hs1
  simp only [StageM.receive, hget1]
  simp only [StageM.receive] at hdec2
  rcases hd : s.round.dec b2 with _ | m2
  · rw [hd] at hdec2; cases hdec2
  · simp only [hd]

/-- C6 witness: on the concrete two-party stage, a second message from
party 1 is rejected as a duplicate and the stage keeps the stored
payload. -/
theorem stage_receive_duplicate_witness :
    (stageEx.receive 1 []).2.receive 1 [] =
      (.error (.theirFault 1 .duplicateMessage), (stageEx.receive 1 []).2) :=
  stage_receive_duplicate stageEx 1 [] []
    ⟨unitRound, some ((HoleVecAccum.new Unit 2 0).set 1 ())⟩ () rfl rfl

/-! ## C3 — the session dispatches on the framing tag -/

/-- C3: for an incoming message whose framing decodes to `(t, body)`:
if `t` is the current round the body is handed to the round's `verify`
through `Stage::receive` (storing the payload in the sender's slot on
success) and the cache is untouched; if `t` is the next round and within
range, the raw body is pushed onto the cache; for any other `t` the
result is an out-of-order error and neither the accumulator nor the
cache changes. -/
theorem session_receive_dispatch {M P : Type} (s : SessionM M P) (frm t : ℕ)
    (w body : List ℕ) (hw : deserializeWithRound w = some (t, body)) :
    (t = s.stageNum + 1 ∧ t ≤ s.stagesNum →
      s.receive frm w =
        (.ok (), { s with nextStageMessages := s.nextStageMessages ++ [(frm, body)] })) ∧
    (t = s.stageNum →
      s.receive frm w =
        ((s.stage.receive frm body).1, { s with stage := (s.stage.receive frm body).2 }) ∧
      (∀ accum msg p, s.stage.accum = some accum → s.stage.round.dec body = some msg →
        accum.get? frm = some none → s.stage.round.verify frm msg = .ok p →
        (s.receive frm w).2.stage.accum = some (accum.set frm p))) ∧
    (t ≠ s.stageNum → ¬(t = s.stageNum + 1 ∧ t ≤ s.stagesNum) →
      s.receive frm w = (.error (.theirFault frm (.outOfOrderMessage s.stageNum t)), s)) := by
  refine ⟨fun hc => ?_, fun ht => ⟨?_, ?_⟩, fun h1 h2 => ?_⟩
  · simp only [SessionM.receive, hw, if_pos hc]
  · have hc : ¬(t = s.stageNum + 1 ∧ t ≤ s.stagesNum) := by omega
    simp only [SessionM.receive, hw, if_neg hc, if_pos ht]
  · intro accum msg p hac hdec hget hver
    have ht' : t = s.stageNum := by
      by_contra hne
      exact hne ht
    have hc : ¬(t = s.stageNum + 1 ∧ t ≤ s.stagesNum) := by omega
    simp only [SessionM.receive, hw, if_neg hc, if_pos ht,
      stageReceive_ok s.stage frm body accum msg p hac hdec hget hver]
  · simp only [SessionM.receive, hw, if_neg h2, if_neg h1]

/-- C3 witness: on the concrete session in round 1 of 4, a tag-1 message
is stored through the stage, a tag-2 message is cached, and a tag-3
message is rejected as out of order with nothing changed. -/
theorem session_receive_dispatch_witness :
    sessionEx.receive 1 (serializeWithRound 2 [9]) =
      (.ok (), { sessionEx with nextStageMessages := [(1, [9])] }) ∧
    sessionEx.receive 1 (serializeWithRound 1 [9]) =
      ((sessionEx.stage.receive 1 [9]).1,
        { sessionEx with stage := (sessionEx.stage.receive 1 [9]).2 }) ∧
    sessionEx.receive 1 (serializeWithRound 3 [9]) =
      (.error (.theirFault 1 (.outOfOrderMessage 1 3)), sessionEx) :=
  ⟨by
    have h := (session_receive_dispatch sessionEx 1 2 (serializeWithRound 2 [9]) [9] rfl).1
      (by decide)
    simpa using h,
   ((session_receive_dispatch sessionEx 1 1 (serializeWithRound 1 [9]) [9] rfl).2.1
      rfl).1,
   (session_receive_dispatch sessionEx 1 3 (serializeWithRound 3 [9]) [9] rfl).2.2
      (by decide) (by decide)⟩

/-! ## C10 — the one-ahead cache defers all validation, LIFO replay -/

/-- C10: a message tagged with the next round number is cached without
any validation — any body, any sender, regardless of what is already in
the cache or the accumulator — and only the cache changes; a cached
message is popped from the end of the cache (last in, first out) and
only then handed to `Stage::receive`, where deserialization, duplicate
detection and verification happen. -/
theorem session_cache_lifo {M P : Type} (s : SessionM M P) :
    (∀ frm body, s.stageNum + 1 ≤ s.stagesNum →
      s.receive frm (serializeWithRound (s.stageNum + 1) body) =
        (.ok (), { s with nextStageMessages := s.nextStageMessages ++ [(frm, body)] })) ∧
    (∀ c frm body, s.nextStageMessages = c ++ [(frm, body)] →
      s.receiveCachedMessage =
        ((s.stage.receive frm body).1,
          { s with stage := (s.stage.receive frm body).2, nextStageMessages := c })) := by
  constructor
  · intro frm body hle
    exact (session_receive_dispatch s frm (s.stageNum + 1)
      (serializeWithRound (s.stageNum + 1) body) body rfl).1 ⟨rfl, hle⟩
  · intro c frm body hc
    simp only [SessionM.receiveCachedMessage, hc, List.getLast?_concat,
      List.dropLast_concat]

/-- C10 witness: on the concrete session, an arbitrary tag-2 body from a
sender that already has a cached entry is appended to the cache, and the
cached message of `sessionCachedEx` is replayed through the stage with
the cache emptied. -/
theorem session_cache_lifo_witness :
    sessionCachedEx.receive 1 (serializeWithRound 2 [8]) =
      (.ok (), { sessionCachedEx with nextStageMessages := [(1, [7]), (1, [8])] }) ∧
    sessionCachedEx.receiveCachedMessage =
      ((sessionCachedEx.stage.receive 1 [7]).1,
        { sessionCachedEx with
            stage := (sessionCachedEx.stage.receive 1 [7]).2
            nextStageMessages := [] }) :=
  ⟨by
    have h := (session_cache_lifo sessionCachedEx).1 1 [8] (by decide)
    simpa using h,
   (session_cache_lifo sessionCachedEx).2 [] 1 [7] rfl⟩

/-! ## Byte-codec lemmas -/

theorem beBytes_length (w n : ℕ) : (beBytes w n).length = w := by
  induction w generalizing n with
  | zero => rfl
  | succ w ih => simp [beBytes, ih]

theorem beBytes_lt (w n : ℕ) (h : n < 256 ^ w) : ∀ b ∈ beBytes w n, b < 256 := by
  induction w generalizing n with
  | zero => simp [beBytes]
  | succ w ih =>
    intro b hb
    rcases List.mem_cons.1 hb with hb | hb
    · subst hb
      have hpos : 0 < 256 ^ w := Nat.pos_pow_of_pos w (by omega)
      have hlt : n < 256 * 256 ^ w := by
        rw [pow_succ] at h
        omega
      exact Nat.div_lt_iff_lt_mul hpos |>.2 hlt
    · exact ih (n % 256 ^ w) (Nat.mod_lt n (Nat.pos_pow_of_pos w (by omega))) b hb

theorem beVal_beBytes (w n : ℕ) (h : n < 256 ^ w) : beVal (beBytes w n) = n := by
  induction w generalizing n with
  | zero =>
    have : n = 0 := by simpa using h
    simp [beBytes, beVal, this]
  | succ w ih =>
    have hpos : 0 < 256 ^ w := Nat.pos_pow_of_pos w (by omega)
    have hmod : n % 256 ^ w < 256 ^ w := Nat.mod_lt n hpos
    simp only [beBytes, beVal, beBytes_length, ih (n % 256 ^ w) hmod]
    rw [mul_comm]
    exact Nat.div_add_mod n (256 ^ w)

/-- `Scalar::try_from_be_bytes ∘ Scalar::to_be_bytes = id` for any
modulus that fits in 32 bytes. -/
theorem scalar_bytes_roundtrip {mm : ℕ} [NeZero mm] (hmm : mm ≤ 256 ^ 32)
    (s : ZMod mm) : scalarTryFromBeBytes mm (scalarToBeBytes s) = some s := by
  have hval : s.val < 256 ^ 32 := lt_of_lt_of_le (ZMod.val_lt s) hmm
  unfold scalarTryFromBeBytes scalarToBeBytes
  rw [if_pos]
  · rw [beVal_beBytes 32 s.val hval]
    exact congrArg some (ZMod.natCast_rightInverse s)
  · exact ⟨beBytes_length 32 s.val, beBytes_lt 32 s.val hval,
      by rw [beVal_beBytes 32 s.val hval]; exact ZMod.val_lt s⟩

/-- Round trip of the compressed-point representation. -/
theorem point_bytes_roundtrip {mm : ℕ} [NeZero mm] (hmm : mm ≤ 256 ^ 32)
    (p : ZMod mm) :
    pointTryFromCompressedBytes mm (pointToCompressedBytes p) = some p := by
  have hval : p.val < 256 ^ 32 := lt_of_lt_of_le (ZMod.val_lt p) hmm
  unfold pointToCompressedBytes
  have hred : pointTryFromCompressedBytes mm (2 :: beBytes 32 p.val) =
      if (2 : ℕ) = 2 ∧ (beBytes 32 p.val).length = 32 ∧
          (∀ b ∈ beBytes 32 p.val, b < 256) ∧ beVal (beBytes 32 p.val) < mm then
        some ((beVal (beBytes 32 p.val) : ℕ) : ZMod mm)
      else none := rfl
  rw [hred, if_pos]
  · rw [beVal_beBytes 32 p.val hval]
    exact congrArg some (ZMod.natCast_rightInverse p)
  · exact ⟨rfl, beBytes_length 32 p.val, beBytes_lt 32 p.val hval,
      by rw [beVal_beBytes 32 p.val hval]; exact ZMod.val_lt p⟩

theorem natParse_cons (a : ℕ) (r : List ℕ) : natParse (a :: r) = some (a, r) := rfl

theorem intParse_intEnc (z : ℤ) (r : List ℕ) :
    intParse (intEnc z ++ r) = some (z, r) := by
  by_cases hz : z < 0
  · have h1 : z.natAbs ≠ 0 := by omega
    have h2 : -(z.natAbs : ℤ) = z := by omega
    simp only [intEnc, if_pos hz, List.cons_append, List.singleton_append, intParse]
    rw [h2]
    simp [h1]
  · have h2 : (z.natAbs : ℤ) = z := by omega
    simp only [intEnc, if_neg hz, List.cons_append, List.singleton_append, intParse]
    rw [h2]
    simp

theorem ciphertextParse_enc (c : CiphertextM) (r : List ℕ) :
    ciphertextParse (ciphertextEnc c ++ r) = some (c, r) := by
  unfold ciphertextEnc ciphertextParse
  simp [natParse_cons, intParse_intEnc]

theorem scalarParse_enc {mm : ℕ} [NeZero mm] (hmm : mm ≤ 256 ^ 32) (s : ZMod mm)
    (r : List ℕ) : scalarParse mm (scalarEnc s ++ r) = some (s, r) := by
  have hlen : (scalarEnc s).length = 32 := beBytes_length 32 s.val
  unfold scalarParse
  rw [List.take_left' hlen, List.drop_left' hlen]
  have := scalar_bytes_roundtrip hmm s
  unfold scalarEnc at *
  simp [this]

theorem logStarParse_enc {mm : ℕ} [NeZero mm] (hmm : mm ≤ 256 ^ 32)
    (p : LogStarProofM mm) (r : List ℕ) :
    logStarParse mm (logStarEnc p ++ r) = some (p, r) := by
  unfold logStarEnc logStarParse
  simp only [List.cons_append, List.append_assoc, natParse_cons, Option.bind_eq_bind,
    Option.some_bind, ciphertextParse_enc, scalarParse_enc hmm]
  simp

theorem affGParse_enc {mm : ℕ} [NeZero mm] (hmm : mm ≤ 256 ^ 32)
    (p : AffGProofM mm) (r : List ℕ) :
    affGParse mm (affGEnc p ++ r) = some (p, r) := by
  unfold affGEnc affGParse
  simp only [List.cons_append, List.append_assoc, natParse_cons, Option.bind_eq_bind,
    Option.some_bind, ciphertextParse_enc, scalarParse_enc hmm]
  simp

theorem encProofParse_enc (p : EncProofM) (r : List ℕ) :
    encProofParse (encProofEnc p ++ r) = some (p, r) := by
  unfold encProofEnc encProofParse
  simp only [List.cons_append, List.append_assoc, natParse_cons, Option.bind_eq_bind,
    Option.some_bind, ciphertextParse_enc]
  simp

theorem round1BcastDec_enc (msg : Round1BcastM) :
    round1BcastDec (round1BcastEnc msg) = some msg := by
  unfold round1BcastEnc round1BcastDec
  rw [show ciphertextEnc msg.kCiphertext ++ ciphertextEnc msg.gCiphertext =
    ciphertextEnc msg.kCiphertext ++ (ciphertextEnc msg.gCiphertext ++ []) by simp]
  simp only [ciphertextParse_enc, Option.bind_eq_bind, Option.some_bind]
  simp

theorem round1DirectDec_enc (msg : Round1DirectM) :
    round1DirectDec (round1DirectEnc msg) = some msg := by
  unfold round1DirectEnc round1DirectDec
  rw [show encProofEnc msg.proof = encProofEnc msg.proof ++ [] by simp]
  simp only [encProofParse_enc, Option.bind_eq_bind, Option.some_bind]
  simp

theorem round2DirectDec_enc {mm : ℕ} [NeZero mm] (hmm : mm ≤ 256 ^ 32)
    (msg : Round2DirectM mm) : round2DirectDec mm (round2DirectEnc msg) = some msg := by
  unfold round2DirectEnc round2DirectDec
  rw [show scalarEnc msg.gamma ++ ciphertextEnc msg.d ++ ciphertextEnc msg.dHat ++
      ciphertextEnc msg.f ++ ciphertextEnc msg.fHat ++ affGEnc msg.psi ++
      affGEnc msg.psiHat ++ logStarEnc msg.psiHatPrime =
    scalarEnc msg.gamma ++ (ciphertextEnc msg.d ++ (ciphertextEnc msg.dHat ++
      (ciphertextEnc msg.f ++ (ciphertextEnc msg.fHat ++ (affGEnc msg.psi ++
      (affGEnc msg.psiHat ++ (logStarEnc msg.psiHatPrime ++ []))))))) by simp]
  simp only [scalarParse_enc hmm, ciphertextParse_enc, affGParse_enc hmm,
    logStarParse_enc hmm, Option.bind_eq_bind, Option.some_bind]
  simp

theorem round3BcastDec_enc {mm : ℕ} [NeZero mm] (hmm : mm ≤ 256 ^ 32)
    (msg : Round3BcastM mm) : round3BcastDec mm (round3BcastEnc msg) = some msg := by
  unfold round3BcastEnc round3BcastDec
  rw [show scalarEnc msg.delta ++ scalarEnc msg.bigDelta ++ logStarEnc msg.psiHatPPrime =
    scalarEnc msg.delta ++ (scalarEnc msg.bigDelta ++ (logStarEnc msg.psiHatPPrime ++ []))
    by simp]
  simp only [scalarParse_enc hmm, logStarParse_enc hmm, Option.bind_eq_bind,
    Option.some_bind]
  simp

/-! ## C7 — framing and serialize/deserialize round trips -/

/-- C7: every wire message produced by `Session::get_messages` is the
round-tag framing of the current round number around the serialized
body, the framing deserializes back to `(current round, body)`, and
serialize-then-deserialize is the identity for the scalar and point leaf
codecs and for every presigning message type (at the implementation's
modulus `secpOrder`). -/
theorem get_messages_roundtrip :
    (∀ (M P : Type) (s : SessionM M P), s.stage.accum = none →
      (∀ msg, s.stage.round.toSend = .broadcast msg →
        (s.getMessages).1 =
          .ok (.broadcast (serializeWithRound s.stageNum (s.stage.round.enc msg)))) ∧
      (∀ msgs, s.stage.round.toSend = .direct msgs →
        (s.getMessages).1 = .ok (.direct (msgs.map fun q =>
          (q.1, serializeWithRound s.stageNum (s.stage.round.enc q.2)))))) ∧
    (∀ r b, deserializeWithRound (serializeWithRound r b) = some (r, b)) ∧
    (∀ s : ZMod secpOrder, scalarTryFromBeBytes secpOrder (scalarToBeBytes s) = some s) ∧
    (∀ p : ZMod secpOrder,
      pointTryFromCompressedBytes secpOrder (pointToCompressedBytes p) = some p) ∧
    (∀ msg : Round1BcastM, round1BcastDec (round1BcastEnc msg) = some msg) ∧
    (∀ msg : Round1DirectM, round1DirectDec (round1DirectEnc msg) = some msg) ∧
    (∀ msg : Round2DirectM secpOrder,
      round2DirectDec secpOrder (round2DirectEnc msg) = some msg) ∧
    (∀ msg : Round3BcastM secpOrder,
      round3BcastDec secpOrder (round3BcastEnc msg) = some msg) := by
  have horder : secpOrder ≤ 256 ^ 32 := by decide
  refine ⟨?_, fun r b => rfl, fun s => scalar_bytes_roundtrip horder s,
    fun p => point_bytes_roundtrip horder p, round1BcastDec_enc, round1DirectDec_enc,
    fun msg => round2DirectDec_enc horder msg, fun msg => round3BcastDec_enc horder msg⟩
  intro M P s h
  constructor
  · intro msg htos
    simp only [SessionM.getMessages, StageM.getMessages, h, Option.isSome_none,
      Bool.false_eq_true, if_false, htos]
  · intro msgs htos
    simp only [SessionM.getMessages, StageM.getMessages, h, Option.isSome_none,
      Bool.false_eq_true, if_false, htos]
    rw [List.map_map]
    rfl

/-- C7 witness: the framing of the concrete round-3 session and the
codec round trip on its concrete message. -/
theorem get_messages_roundtrip_witness :
    (round3SessionEx.getMessages).1 = .ok (.direct [(1, serializeWithRound 4
      (round3BcastEnc (⟨1, 2, ⟨0, ⟨0, 0⟩, 3, 4, 0, (0, 0)⟩⟩ : Round3BcastM secpOrder)))]) ∧
    round3BcastDec secpOrder (round3BcastEnc
      (⟨1, 2, ⟨0, ⟨0, 0⟩, 3, 4, 0, (0, 0)⟩⟩ : Round3BcastM secpOrder)) =
      some ⟨1, 2, ⟨0, ⟨0, 0⟩, 3, 4, 0, (0, 0)⟩⟩ :=
  ⟨by
    have h := (get_messages_roundtrip.1 (Round3BcastM secpOrder)
      (Round3PayloadM secpOrder) round3SessionEx rfl).2
      [(1, ⟨1, 2, ⟨0, ⟨0, 0⟩, 3, 4, 0, (0, 0)⟩⟩)] rfl
    simpa using h,
   get_messages_roundtrip.2.2.2.2.2.2.2 ⟨1, 2, ⟨0, ⟨0, 0⟩, 3, 4, 0, (0, 0)⟩⟩⟩

/-! ## C5 — signature construction and low-s normalization -/

/-- C5 counterexample: `Signature::from_scalars` performs no
normalization — constructing a signature from `r = 1` and the high
scalar `s = -1` succeeds and returns the signature with `s = -1`
unchanged, whose `s` is in the high half of the curve order.  This
refutes "the returned s always satisfies `s ≤ (n-1)/2`". -/
theorem signature_from_scalars_cex :
    SignatureM.fromScalars 1 (-1) = some ⟨1, -1⟩ ∧
    halfOrder < ((some (⟨1, -1⟩ : SignatureM)).get rfl).s.val := by
  constructor
  · decide
  · decide

/-- C5 amended: `Signature::from_scalars` returns a signature exactly
when both scalars are nonzero, storing `r` and `s` unchanged (no low-s
normalization, no recovery bit — the source leaves `normalize_s` as a
`TODO`); the `Scalar::normalize` helper does negate a high `s`, and its
result is never high. -/
theorem signature_from_scalars_no_normalization (r s : ZMod secpOrder) :
    (∀ sig, SignatureM.fromScalars r s = some sig ↔ (r ≠ 0 ∧ s ≠ 0 ∧ sig = ⟨r, s⟩)) ∧
    (halfOrder < s.val → normalize s = -s) ∧
    (¬ halfOrder < s.val → normalize s = s) ∧
    ¬ halfOrder < (normalize s).val := by
  refine ⟨?_, fun h => if_pos h, fun h => if_neg h, ?_⟩
  · intro sig
    unfold SignatureM.fromScalars
    by_cases hr : r = 0
    · simp [hr]
    by_cases hs : s = 0
    · simp [hs]
    · simp only [hr, hs, or_self, if_neg, false_or]
      constructor
      · intro h
        injection h with h'
        exact ⟨hr, hs, h'.symm⟩
      · rintro ⟨-, -, rfl⟩
        simp [hr, hs]
  · unfold normalize
    by_cases h : halfOrder < s.val
    · rw [if_pos h]
      have hs0 : s ≠ 0 := by
        intro h0
        rw [h0] at h
        simp [ZMod.val_zero] at h
      have hodd : secpOrder = 2 * halfOrder + 1 := by decide
      have hneg : (-s).val = secpOrder - s.val := by
        rw [ZMod.neg_val, if_neg hs0]
      have hlt : s.val < secpOrder := ZMod.val_lt s
      omega
    · rwa [if_neg h]

/-- C5 witness: a nonzero pair is accepted with `s` stored unchanged,
and `normalize (-1)` is not high. -/
theorem signature_from_scalars_no_normalization_witness :
    SignatureM.fromScalars 1 1 = some ⟨1, 1⟩ ∧
    ¬ halfOrder < (normalize (-1 : ZMod secpOrder)).val :=
  ⟨((signature_from_scalars_no_normalization 1 1).1 ⟨1, 1⟩).mpr
      ⟨by decide, by decide, rfl⟩,
    (signature_from_scalars_no_normalization 1 (-1)).2.2.2⟩

/-! ## C8 — the verifying key is the sum of the public shares -/

/-- C8 counterexample: a key share whose public shares sum to the
identity point is constructible (the fields are public and no
constructor checks the sum — the source marks this as a `TODO`), so "the
sum is never the identity point for any constructed key share" is
false; `verifying_key()` panics (modelled as `none`) on it. -/
theorem verifying_key_identity_cex :
    keyShareCEx.verifyingKeyAsPoint = 0 ∧ keyShareCEx.verifyingKey = none := by
  constructor
  · decide
  · decide

/-- C8 amended: `verifying_key()` returns the sum `Σ X_j` of all
parties' public shares converted to a verifying key; the conversion
(and hence the method) succeeds exactly when that sum is not the
identity point, which the key-share type does not guarantee. -/
theorem verifying_key_sum (ks : KeyShareM) :
    ks.verifyingKeyAsPoint = (ks.public.map (fun p => p.x)).sum ∧
    (∀ v, ks.verifyingKey = some v ↔
      ((ks.public.map (fun p => p.x)).sum ≠ 0 ∧
        v = (ks.public.map (fun p => p.x)).sum)) := by
  refine ⟨rfl, fun v => ?_⟩
  unfold KeyShareM.verifyingKey pointToVerifyingKey KeyShareM.verifyingKeyAsPoint
  by_cases h : (ks.public.map (fun p => p.x)).sum = 0
  · simp [h]
  · simp only [h, if_neg, ne_eq, not_false_eq_true, true_and, Option.some.injEq]
    exact ⟨fun he => he.symm, fun he => he.symm⟩

/-- C8 witness: on the concrete two-party share the verifying key is the
(non-identity) sum of the public shares. -/
theorem verifying_key_sum_witness :
    keyShareOkEx.verifyingKey = some 2 :=
  ((verifying_key_sum keyShareOkEx).2 2).mpr ⟨by decide, by decide⟩

/-! ## C2 — round-3 finalization -/

/-- C2 counterexample: a `Round3` state and payload set on which the
`δ·G = Δ` check passes but `δ = 0`, so finalization panics on
`delta.invert().unwrap()` instead of returning the presigning result —
refuting the claim's "returns the result if and only if `δ·G = Δ`". -/
theorem round3_finalize_cex :
    mulByGenerator (round3DeltaSum round3StateCEx round3PayloadsCEx) =
      round3BigDeltaSum round3StateCEx round3PayloadsCEx ∧
    round3DeltaSum round3StateCEx round3PayloadsCEx = 0 ∧
    round3Finalize round3StateCEx round3PayloadsCEx = .panicked := by
  refine ⟨by decide, by decide, by decide⟩

/-- C2 amended: `Round3::finalize` sums the received `delta_j` and
`Delta_j` with its own contributions and returns the presigning result
with nonce `R = Γ·δ⁻¹` exactly when `δ·G = Δ` and `δ ≠ 0` (when
`δ·G = Δ` but `δ = 0` the unwrap of the inversion panics); when the
equality fails it evaluates the identification sub-protocol's `Mul` and
`Dec` proofs and, their self-test assertions passing, returns the
terminal "Invalid Delta" error (no next round and no result). -/
theorem round3_finalize_behavior {m : ℕ} (st : Round3StateM m)
    (ps : List (Round3PayloadM m)) :
    (∀ d, round3Finalize st ps = .result d ↔
      (mulByGenerator (round3DeltaSum st ps) = round3BigDeltaSum st ps ∧
       round3DeltaSum st ps ≠ 0 ∧
       d = ⟨st.bigGamma * (round3DeltaSum st ps)⁻¹, st.ephemeralScalarShare,
         st.productShare⟩)) ∧
    (mulByGenerator (round3DeltaSum st ps) ≠ round3BigDeltaSum st ps →
      (round3IdentChecks st → round3Finalize st ps = .invalidDelta) ∧
      (¬ round3IdentChecks st → round3Finalize st ps = .panicked)) ∧
    (mulByGenerator (round3DeltaSum st ps) = round3BigDeltaSum st ps →
      round3DeltaSum st ps = 0 → round3Finalize st ps = .panicked) := by
  by_cases hc : mulByGenerator (round3DeltaSum st ps) = round3BigDeltaSum st ps
  · by_cases hz : round3DeltaSum st ps = 0
    · have hfin : round3Finalize st ps = .panicked := by
        unfold round3Finalize invertScalar
        rw [if_pos hc, if_pos hz]
      refine ⟨fun d => ?_, fun hne => absurd hc hne, fun _ _ => hfin⟩
      simp [hfin, hz]
    · have hfin : round3Finalize st ps = .result ⟨st.bigGamma * (round3DeltaSum st ps)⁻¹,
          st.ephemeralScalarShare, st.productShare⟩ := by
        unfold round3Finalize invertScalar
        rw [if_pos hc, if_neg hz]
      refine ⟨fun d => ?_, fun hne => absurd hc hne, fun _ h0 => absurd h0 hz⟩
      rw [hfin]
      constructor
      · intro h
        injection h with h'
        exact ⟨hc, hz, h'.symm⟩
      · rintro ⟨-, -, rfl⟩
        rfl
  · have hfin : round3Finalize st ps =
        if round3IdentChecks st then .invalidDelta else .panicked := by
      unfold round3Finalize
      rw [if_neg hc]
    by_cases hid : round3IdentChecks st
    · exact ⟨fun d => by simp [hfin, if_pos hid, hc],
        fun _ => ⟨fun _ => by rw [hfin, if_pos hid], fun h => absurd hid h⟩,
        fun h => absurd h hc⟩
    · exact ⟨fun d => by simp [hfin, if_neg hid, hc],
        fun _ => ⟨fun h => absurd h hid, fun _ => by rw [hfin, if_neg hid]⟩,
        fun h => absurd h hc⟩

/-- C2 witness: on a concrete state with `δ = 1` and `Δ = 1·G`,
finalization returns the presigning result. -/
theorem round3_finalize_behavior_witness :
    round3Finalize round3StateOkEx [] = .result ⟨0, 0, 0⟩ :=
  ((round3_finalize_behavior round3StateOkEx []).1 ⟨0, 0, 0⟩).mpr
    ⟨by decide, by decide, by simp [round3StateOkEx]⟩

/-! ## Support lemmas for the honest presigning run -/

theorem natCast_val_eq {m : ℕ} [NeZero m] (s : ZMod m) :
    ((s.val : ℕ) : ZMod m) = s :=
  ZMod.natCast_rightInverse s

theorem intCast_val_eq {m : ℕ} [NeZero m] (s : ZMod m) :
    ((s.val : ℤ) : ZMod m) = s := by
  rw [Int.cast_natCast]
  exact natCast_val_eq s

theorem finRange_filter_map_sum {α : Type} [AddCommMonoid α] (n : ℕ) (i : Fin n)
    (f : Fin n → α) :
    (((List.finRange n).filter (fun j => j ≠ i)).map f).sum =
      ∑ j ∈ Finset.univ.erase i, f j := by
  rw [← List.sum_toFinset _ ((List.nodup_finRange n).filter _)]
  congr 1
  rw [List.toFinset_filter, List.toFinset_finRange]
  ext j
  simp [Finset.mem_erase]

/-- The double-sum cancellation at the heart of the presigning algebra:
summing the per-party masked shares over all parties, the masks cancel
pairwise and the cross terms assemble the full product. -/
theorem masked_sum_total {R : Type} [CommRing R] (n : ℕ) (a b : Fin n → R)
    (B : Fin n → Fin n → R) :
    (∑ i, (a i * b i + (∑ j ∈ Finset.univ.erase i, (b i * a j - B j i))
      + (∑ j ∈ Finset.univ.erase i, B i j)))
    = (∑ j, a j) * (∑ j, b j) := by
  have h1 : ∀ i : Fin n, (∑ j ∈ Finset.univ.erase i, (b i * a j - B j i))
      = (∑ j, (b i * a j - B j i)) - (b i * a i - B i i) := fun i =>
    Finset.sum_erase_eq_sub (Finset.mem_univ i)
  have h2 : ∀ i : Fin n, (∑ j ∈ Finset.univ.erase i, B i j)
      = (∑ j, B i j) - B i i := fun i => Finset.sum_erase_eq_sub (Finset.mem_univ i)
  simp only [h1, h2, Finset.sum_sub_distrib, ← Finset.mul_sum]
  simp only [Finset.sum_add_distrib, Finset.sum_sub_distrib, ← Finset.sum_mul]
  rw [show (∑ i : Fin n, ∑ j : Fin n, B j i) = (∑ i : Fin n, ∑ j : Fin n, B i j) from
    Finset.sum_comm]
  rw [show (∑ x : Fin n, b x * a x) = ∑ x : Fin n, a x * b x from
    Finset.sum_congr rfl fun x _ => mul_comm _ _]
  ring

theorem bigGamma_eq {m : ℕ} (n : ℕ) (sr : ℕ) (k γ x : Fin n → ZMod m)
    (β β' : Fin n → Fin n → ℤ) (i : Fin n) :
    (round2FinalizeSt m n sr k γ x β β' i).bigGamma = ∑ j, γ j := by
  simp only [round2FinalizeSt, round2PayloadOf, mulByGenerator]
  exact Finset.sum_erase_add _ _ (Finset.mem_univ i)

/-- Every honest round-1b `EncProof` verifies at its recipient. -/
theorem round1Part2Verify_honest {m : ℕ} (n sr : ℕ) (k : Fin n → ZMod m)
    (i j : Fin n) :
    round1Part2Verify m n sr k i j (round1Direct m n sr k j i) = .ok () := by
  simp [round1Part2Verify, round1Direct, EncProofM.verify, EncProofM.random,
    kCiphertextOf, encWithPk]

/-- Every honest round-2 message verifies at its recipient and yields
the honest payload. -/
theorem round2Verify_honest {m : ℕ} [NeZero m] (n sr : ℕ) (k γ x : Fin n → ZMod m)
    (β β' : Fin n → Fin n → ℤ) (i j : Fin n) :
    round2Verify m n sr k γ x i j (round2Direct m n sr k γ x β β' j i) =
      .ok (round2PayloadOf m n k γ x β β' j i) := by
  simp [round2Verify, round2Direct, round2PayloadOf, AffGProofM.verify,
    AffGProofM.random, LogStarProofM.verify, LogStarProofM.random, capDOf, capFOf,
    capDHatOf, capFHatOf, kCiphertextOf, gCiphertextOf, encWithPk,
    CiphertextM.homomorphicMul, CiphertextM.homomorphicAdd, CiphertextM.decryptSigned,
    mulByGenerator, signedFromScalar, signedToScalar, intCast_val_eq, natCast_val_eq]

/-- Every honest round-3 message verifies at its recipient and yields
the honest payload. -/
theorem round3Verify_honest {m : ℕ} [NeZero m] (n sr : ℕ) (k γ x : Fin n → ZMod m)
    (β β' : Fin n → Fin n → ℤ) (i j : Fin n) :
    round3Verify m n sr k γ x β β' i j (round3Bcast m n sr k γ x β β' j i) =
      .ok (round3PayloadOf m n sr k γ x β β' j i) := by
  have h1 := bigGamma_eq n sr k γ x β β' j
  have h2 := bigGamma_eq n sr k γ x β β' i
  have hC : LogStarProofM.verify ((round3Bcast m n sr k γ x β β' j i).psiHatPPrime)
      j (kCiphertextOf m n k j) ((round2FinalizeSt m n sr k γ x β β' i).bigGamma)
      ((round3Bcast m n sr k γ x β β' j i).bigDelta) i (sr, j) := by
    have hmsg : (round3Bcast m n sr k γ x β β' j i).psiHatPPrime =
        LogStarProofM.random m (signedFromScalar (k j)) j
          (round2FinalizeSt m n sr k γ x β β' j).bigGamma i (sr, j) := rfl
    have hbd2 : (round3Bcast m n sr k γ x β β' j i).bigDelta =
        (round2FinalizeSt m n sr k γ x β β' j).bigGamma * k j := rfl
    rw [hmsg, hbd2]
    unfold LogStarProofM.verify LogStarProofM.random
    rw [LogStarProofM.mk.injEq]
    refine ⟨rfl, rfl, by rw [h1, h2], ?_, rfl, rfl⟩
    simp only [signedFromScalar]
    rw [intCast_val_eq]
    exact mul_comm _ _
  simp only [round3Verify]
  rw [if_neg (not_not_intro hC)]
  rfl

/-- All verifications of an honest run succeed. -/
theorem presigningChecks_holds {m : ℕ} [NeZero m] (n sr : ℕ) (k γ x : Fin n → ZMod m)
    (β β' : Fin n → Fin n → ℤ) : presigningChecks m n sr k γ x β β' :=
  ⟨fun i j _ => round1Part2Verify_honest n sr k i j,
   fun i j _ => round2Verify_honest n sr k γ x β β' i j,
   fun i j _ => round3Verify_honest n sr k γ x β β' i j⟩

/-- The per-party `delta`, reduced to the scalar field. -/
theorem round2_delta_cast {m : ℕ} [NeZero m] (n sr : ℕ) (k γ x : Fin n → ZMod m)
    (β β' : Fin n → Fin n → ℤ) (i : Fin n) :
    signedToScalar m (round2FinalizeSt m n sr k γ x β β' i).delta =
      γ i * k i +
        (∑ j ∈ Finset.univ.erase i, (k i * γ j - ((β j i : ℤ) : ZMod m))) +
        (∑ j ∈ Finset.univ.erase i, ((β i j : ℤ) : ZMod m)) := by
  simp only [round2FinalizeSt, round2PayloadOf, capDOf, kCiphertextOf, encWithPk,
    CiphertextM.homomorphicMul, CiphertextM.homomorphicAdd, CiphertextM.decryptSigned,
    signedToScalar, signedFromScalar]
  push_cast
  simp only [intCast_val_eq, natCast_val_eq, sub_eq_add_neg]

/-- The per-party `product_share` (the `χ_i`), in summable form. -/
theorem round2_product_cast {m : ℕ} [NeZero m] (n sr : ℕ) (k γ x : Fin n → ZMod m)
    (β β' : Fin n → Fin n → ℤ) (i : Fin n) :
    (round2FinalizeSt m n sr k γ x β β' i).productShare =
      x i * k i +
        (∑ j ∈ Finset.univ.erase i, (k i * x j - ((β' j i : ℤ) : ZMod m))) +
        (∑ j ∈ Finset.univ.erase i, ((β' i j : ℤ) : ZMod m)) := by
  simp only [round2FinalizeSt, round2PayloadOf, capDHatOf, kCiphertextOf, encWithPk,
    CiphertextM.homomorphicMul, CiphertextM.homomorphicAdd, CiphertextM.decryptSigned,
    signedToScalar, signedFromScalar]
  push_cast
  simp only [intCast_val_eq, natCast_val_eq, sub_eq_add_neg]

/-- The sum of all parties' `delta` shares is `γ·k` (with `γ = Σ γ_j`,
`k = Σ k_j`). -/
theorem delta_total {m : ℕ} [NeZero m] (n sr : ℕ) (k γ x : Fin n → ZMod m)
    (β β' : Fin n → Fin n → ℤ) :
    (∑ i, signedToScalar m (round2FinalizeSt m n sr k γ x β β' i).delta) =
      (∑ j, γ j) * (∑ j, k j) := by
  rw [Finset.sum_congr rfl (fun i _ => round2_delta_cast n sr k γ x β β' i)]
  exact masked_sum_total n γ k (fun a b => ((β a b : ℤ) : ZMod m))

/-- The sum of all parties' `χ_i` shares is `x·k`. -/
theorem product_total {m : ℕ} [NeZero m] (n sr : ℕ) (k γ x : Fin n → ZMod m)
    (β β' : Fin n → Fin n → ℤ) :
    (∑ i, (round2FinalizeSt m n sr k γ x β β' i).productShare) =
      (∑ j, x j) * (∑ j, k j) := by
  rw [Finset.sum_congr rfl (fun i _ => round2_product_cast n sr k γ x β β' i)]
  exact masked_sum_total n x k (fun a b => ((β' a b : ℤ) : ZMod m))

/-- In the honest run, every party's summed `δ` is `γ·k`. -/
theorem round3DeltaSum_honest {m : ℕ} [NeZero m] (n sr : ℕ) (k γ x : Fin n → ZMod m)
    (β β' : Fin n → Fin n → ℤ) (i : Fin n) :
    round3DeltaSum (round2FinalizeSt m n sr k γ x β β' i)
      (round3PayloadListFor m n sr k γ x β β' i) = (∑ j, γ j) * (∑ j, k j) := by
  unfold round3DeltaSum round3PayloadListFor
  rw [List.map_map]
  have hmap : ((List.finRange n).filter (fun j => j ≠ i)).map
      ((fun p : Round3PayloadM m => p.delta) ∘
        (fun j => round3PayloadOf m n sr k γ x β β' j i)) =
      ((List.finRange n).filter (fun j => j ≠ i)).map
        (fun j => signedToScalar m (round2FinalizeSt m n sr k γ x β β' j).delta) :=
    List.map_congr_left (fun j _ => rfl)
  rw [hmap, finRange_filter_map_sum n i
    (fun j => signedToScalar m (round2FinalizeSt m n sr k γ x β β' j).delta),
    Finset.sum_erase_add _ _ (Finset.mem_univ i)]
  exact delta_total n sr k γ x β β'

/-- In the honest run, every party's summed `Δ` is `(γ·k)·G`. -/
theorem round3BigDeltaSum_honest {m : ℕ} [NeZero m] (n sr : ℕ)
    (k γ x : Fin n → ZMod m) (β β' : Fin n → Fin n → ℤ) (i : Fin n) :
    round3BigDeltaSum (round2FinalizeSt m n sr k γ x β β' i)
      (round3PayloadListFor m n sr k γ x β β' i) = (∑ j, γ j) * (∑ j, k j) := by
  unfold round3BigDeltaSum round3PayloadListFor
  rw [List.map_map]
  have hmap : ((List.finRange n).filter (fun j => j ≠ i)).map
      ((fun p : Round3PayloadM m => p.bigDelta) ∘
        (fun j => round3PayloadOf m n sr k γ x β β' j i)) =
      ((List.finRange n).filter (fun j => j ≠ i)).map
        (fun j => (round2FinalizeSt m n sr k γ x β β' j).bigDelta) :=
    List.map_congr_left (fun j _ => rfl)
  rw [hmap, finRange_filter_map_sum n i
    (fun j => (round2FinalizeSt m n sr k γ x β β' j).bigDelta),
    Finset.sum_erase_add _ _ (Finset.mem_univ i)]
  have hbd : ∀ j : Fin n, (round2FinalizeSt m n sr k γ x β β' j).bigDelta =
      (∑ a, γ a) * k j := by
    intro j
    have : (round2FinalizeSt m n sr k γ x β β' j).bigDelta =
        (round2FinalizeSt m n sr k γ x β β' j).bigGamma * k j := rfl
    rw [this, bigGamma_eq n sr k γ x β β' j]
  rw [Finset.sum_congr rfl (fun j _ => hbd j), ← Finset.mul_sum]

/-- `Round3::finalize` on the honest state: the `δ·G = Δ` check always
passes, and the outcome is the presigning triple unless `γ·k = 0`, in
which case the inversion panics. -/
theorem round3Finalize_honest {m : ℕ} [NeZero m] (n sr : ℕ) (k γ x : Fin n → ZMod m)
    (β β' : Fin n → Fin n → ℤ) (i : Fin n) :
    round3Finalize (round2FinalizeSt m n sr k γ x β β' i)
      (round3PayloadListFor m n sr k γ x β β' i) =
      if (∑ j, γ j) * (∑ j, k j) = 0 then .panicked
      else .result ⟨(∑ j, γ j) * ((∑ j, γ j) * (∑ j, k j))⁻¹, k i,
        (round2FinalizeSt m n sr k γ x β β' i).productShare⟩ := by
  unfold round3Finalize invertScalar
  rw [round3DeltaSum_honest n sr k γ x β β' i, round3BigDeltaSum_honest n sr k γ x β β' i,
    if_pos (show mulByGenerator ((∑ j, γ j) * ∑ j, k j) = (∑ j, γ j) * ∑ j, k j from rfl)]
  by_cases hz : (∑ j, γ j) * (∑ j, k j) = 0
  · rw [if_pos hz, if_pos hz]
  · rw [if_neg hz, if_neg hz]
    refine Eq.trans (rfl : _ = Round3OutcomeM.result
      ⟨(round2FinalizeSt m n sr k γ x β β' i).bigGamma * ((∑ j, γ j) * ∑ j, k j)⁻¹,
        (round2FinalizeSt m n sr k γ x β β' i).ephemeralScalarShare,
        (round2FinalizeSt m n sr k γ x β β' i).productShare⟩) ?_
    rw [bigGamma_eq n sr k γ x β β' i]
    rfl

theorem mapM_toData_ofFn {m : ℕ} : ∀ {n' : ℕ} (g : Fin n' → Round3OutcomeM m)
    (f : Fin n' → PresigningDataM m), (∀ i, g i = .result (f i)) →
    (List.ofFn g).mapM Round3OutcomeM.toData? = some (List.ofFn f) := by
  intro n'
  induction n' with
  | zero => intro g f _; rfl
  | succ n ih =>
    intro g f h
    rw [List.ofFn_succ, List.ofFn_succ, List.mapM_cons, h 0]
    simp only [Round3OutcomeM.toData?]
    rw [ih (fun i => g i.succ) (fun i => f i.succ) (fun i => h i.succ)]
    rfl

theorem mapM_mem_ne_none {α β : Type} (fn : α → Option β) :
    ∀ (l : List α) (out : List β), l.mapM fn = some out → ∀ a ∈ l, fn a ≠ none := by
  intro l
  induction l with
  | nil => simp
  | cons hd tl ih =>
    intro out h a ha
    rw [List.mapM_cons] at h
    rcases hhd : fn hd with _ | b
    · rw [hhd] at h
      simp at h
    · rw [hhd] at h
      rcases htl : tl.mapM fn with _ | bs
      · rw [htl] at h
        simp at h
      · rcases List.mem_cons.1 ha with rfl | ha'
        · rw [hhd]
          simp
        · exact ih bs htl a ha'

/-! ## C1 — invariants of an honest presigning run -/

/-- C1: for every honest run of presigning rounds 1a, 1b, 2 and 3 (all
N ≥ 2 parties verifying and finalizing to completion), the per-party
outputs `(R, k_i, χ_i)` satisfy: every party holds the same nonce point
`R = k⁻¹·G` where `k = Σ k_i`, and the shares sum as `Σ χ_i = k·x` with
`x = Σ x_i` the sum of the secret shares. -/
theorem presigning_honest_run_invariants {m n : ℕ} (hm : Nat.Prime m) (hn : 2 ≤ n)
    (sr : ℕ) (k γ x : Fin n → ZMod m) (β β' : Fin n → Fin n → ℤ)
    (out : List (PresigningDataM m))
    (hout : presigningRun m n sr k γ x β β' = some out) :
    (∀ d ∈ out, d.nonce = mulByGenerator (∑ i, k i)⁻¹) ∧
    (out.map (fun d => d.ephemeralScalarShare)).sum = ∑ i, k i ∧
    (out.map (fun d => d.productShare)).sum = (∑ i, k i) * (∑ i, x i) := by
  haveI : Fact m.Prime := ⟨hm⟩
  haveI : NeZero m := ⟨hm.ne_zero⟩
  unfold presigningRun at hout
  rw [if_pos (presigningChecks_holds n sr k γ x β β')] at hout
  by_cases hz : (∑ j, γ j) * (∑ j, k j) = 0
  · exfalso
    have i0 : Fin n := ⟨0, by omega⟩
    have hmem : round3Finalize (round2FinalizeSt m n sr k γ x β β' i0)
        (round3PayloadListFor m n sr k γ x β β' i0) ∈
        List.ofFn (fun i => round3Finalize (round2FinalizeSt m n sr k γ x β β' i)
          (round3PayloadListFor m n sr k γ x β β' i)) :=
      (List.mem_ofFn _ _).2 ⟨i0, rfl⟩
    have hne := mapM_mem_ne_none Round3OutcomeM.toData? _ out hout _ hmem
    rw [round3Finalize_honest n sr k γ x β β' i0, if_pos hz] at hne
    exact hne rfl
  · have hres : ∀ i : Fin n,
        round3Finalize (round2FinalizeSt m n sr k γ x β β' i)
          (round3PayloadListFor m n sr k γ x β β' i) =
        .result ⟨(∑ j, γ j) * ((∑ j, γ j) * (∑ j, k j))⁻¹, k i,
          (round2FinalizeSt m n sr k γ x β β' i).productShare⟩ := fun i => by
      rw [round3Finalize_honest n sr k γ x β β' i, if_neg hz]
    rw [mapM_toData_ofFn _ _ hres, Option.some_inj] at hout
    subst hout
    obtain ⟨hG, hK⟩ := mul_ne_zero_iff.1 hz
    have hR : (∑ j, γ j) * ((∑ j, γ j) * (∑ j, k j))⁻¹ = (∑ i, k i)⁻¹ := by
      rw [mul_inv, ← mul_assoc, mul_inv_cancel₀ hG, one_mul]
    refine ⟨?_, ?_, ?_⟩
    · intro d hd
      rw [List.mem_ofFn] at hd
      obtain ⟨i, rfl⟩ := hd
      exact hR
    · rw [List.map_ofFn, List.sum_ofFn]
      rfl
    · rw [List.map_ofFn, List.sum_ofFn]
      have := product_total n sr k γ x β β'
      rw [show ((fun d : PresigningDataM m => d.productShare) ∘ fun i =>
        (⟨(∑ j, γ j) * ((∑ j, γ j) * (∑ j, k j))⁻¹, k i,
          (round2FinalizeSt m n sr k γ x β β' i).productShare⟩ : PresigningDataM m)) =
        fun i => (round2FinalizeSt m n sr k γ x β β' i).productShare from rfl]
      rw [this, mul_comm]

/-- C1 witness: the honest two-party run over `ZMod 5` with shares
`k = γ = x = (1, 0)` and zero maskers completes with a concrete output
list, and that output satisfies the three invariants. -/
theorem presigning_honest_run_invariants_witness :
    presigningRun 5 2 0 kEx kEx kEx zeroBeta zeroBeta = some presigningOutEx ∧
    (∀ d ∈ presigningOutEx, d.nonce = mulByGenerator (∑ i, kEx i)⁻¹) ∧
    (presigningOutEx.map (fun d => d.ephemeralScalarShare)).sum = ∑ i, kEx i ∧
    (presigningOutEx.map (fun d => d.productShare)).sum =
      (∑ i, kEx i) * (∑ i, kEx i) := by
  have hsum : (∑ j : Fin 2, kEx j) = 1 := by decide
  have hz : ¬ ((∑ j : Fin 2, kEx j) * (∑ j : Fin 2, kEx j) = 0) := by
    rw [hsum, one_mul]
    decide
  have hres : ∀ i : Fin 2,
      round3Finalize (round2FinalizeSt 5 2 0 kEx kEx kEx zeroBeta zeroBeta i)
        (round3PayloadListFor 5 2 0 kEx kEx kEx zeroBeta zeroBeta i) =
        .result (presigningOutFn i) := by
    intro i
    rw [round3Finalize_honest 2 0 kEx kEx kEx zeroBeta zeroBeta i, if_neg hz, hsum]
    have h1 : (1 : ZMod 5)⁻¹ = 1 := by
      haveI : Fact (Nat.Prime 5) := ⟨by norm_num⟩
      exact inv_one
    rw [one_mul, one_mul, h1]
    refine congrArg Round3OutcomeM.result ?_
    fin_cases i <;> decide
  have hrun : presigningRun 5 2 0 kEx kEx kEx zeroBeta zeroBeta =
      some presigningOutEx := by
    unfold presigningRun
    rw [if_pos (presigningChecks_holds 2 0 kEx kEx kEx zeroBeta zeroBeta)]
    rw [mapM_toData_ofFn _ presigningOutFn hres]
    rfl
  exact ⟨hrun, presigning_honest_run_invariants (by norm_num) (by norm_num)
    0 kEx kEx kEx zeroBeta zeroBeta presigningOutEx hrun⟩

/-! ## C4 — a failing round-2 AffG proof (ψ) -/

/-- C4: if the round-2 direct message from `s` to `r` carries an AffG
proof `ψ` that fails verification, then `Round2::verify_received`
returns the error "Failed to verify AffGProof (psi)"; the session
layer's `Stage::receive` at `r` returns
`TheirFault(s, VerificationFail("Failed to verify AffGProof (psi)"))`
leaving the accumulator unchanged (no payload stored for `s`); and the
interactive-signing run with this tampering produces no signature list
for any message. -/
theorem round2_psi_failure {m n : ℕ} [NeZero m] (sr : ℕ) (k γ x : Fin n → ZMod m)
    (β β' : Fin n → Fin n → ℤ) (s r : Fin n) (ψ : AffGProofM m)
    (enc : Round2DirectM m → List ℕ) (dec : List ℕ → Option (Round2DirectM m))
    (accum : HoleVecAccum (Round2PayloadM m)) (b : List ℕ)
    (hsr : s ≠ r)
    (hψ : ¬ ψ.verify r s (kCiphertextOf m n k r)
      (round2Direct m n sr k γ x β β' s r).d (round2Direct m n sr k γ x β β' s r).f
      (round2Direct m n sr k γ x β β' s r).gamma r (sr, s))
    (hdec : dec b = some (round2DirectTampered m n sr k γ x β β' s r ψ s r))
    (hget : accum.get? s.val = some none) :
    round2Verify m n sr k γ x r s (round2DirectTampered m n sr k γ x β β' s r ψ s r) =
      .error "Failed to verify AffGProof (psi)" ∧
    StageM.receive ⟨round2RoundModel m n sr k γ x β β' r enc dec, some accum⟩ s.val b =
      (.error (.theirFault s.val
        (.verificationFail "Failed to verify AffGProof (psi)")),
        ⟨round2RoundModel m n sr k γ x β β' r enc dec, some accum⟩) ∧
    (∀ ξ μ, interactiveSigningRunTampered m n sr k γ x β β' s r ψ ξ μ = none) := by
  have hmsg : round2DirectTampered m n sr k γ x β β' s r ψ s r =
      { round2Direct m n sr k γ x β β' s r with psi := ψ } := if_pos ⟨rfl, rfl⟩
  have h1 : round2Verify m n sr k γ x r s
      (round2DirectTampered m n sr k γ x β β' s r ψ s r) =
      .error "Failed to verify AffGProof (psi)" := by
    rw [hmsg]
    simp only [round2Verify]
    rw [if_pos hψ]
  refine ⟨h1, ?_, ?_⟩
  · have hver : (round2RoundModel m n sr k γ x β β' r enc dec).verify s.val
        (round2DirectTampered m n sr k γ x β β' s r ψ s r) =
        .error "Failed to verify AffGProof (psi)" := by
      simp only [round2RoundModel]
      rw [dif_pos s.isLt, Fin.eta]
      exact h1
    exact stageReceive_verFail _ s.val b accum _ _ rfl hdec hget hver
  · intro ξ μ
    have hchecks : ¬ presigningChecksTampered m n sr k γ x β β' s r ψ := by
      intro hchk
      have hok := hchk.2.1 r s hsr
      rw [h1] at hok
      exact Except.noConfusion hok
    unfold interactiveSigningRunTampered presigningRunTampered
    rw [if_neg hchecks]
    rfl

/-- C4 witness: in the concrete two-party run over `ZMod 5`, party 0's
round-2 message to party 1 carries the non-verifying proof `psiBadEx`;
party 1's `receive` fails with the attributed `VerificationFail`, stores
nothing, and the tampered interactive-signing run yields no signatures. -/
theorem round2_psi_failure_witness :
    round2Verify 5 2 0 kEx kEx kEx 1 0 round2MsgTEx =
      .error "Failed to verify AffGProof (psi)" ∧
    round2StageEx.receive 0 (round2DirectEnc round2MsgTEx) =
      (.error (.theirFault 0
        (.verificationFail "Failed to verify AffGProof (psi)")), round2StageEx) ∧
    interactiveSigningRunTampered 5 2 0 kEx kEx kEx zeroBeta zeroBeta 0 1 psiBadEx
      id 0 = none := by
  have h := round2_psi_failure 0 kEx kEx kEx zeroBeta zeroBeta 0 1 psiBadEx
    round2DirectEnc (round2DirectDec 5)
    (HoleVecAccum.new (Round2PayloadM 5) 2 1) (round2DirectEnc round2MsgTEx)
    (by decide) (by decide)
    (round2DirectDec_enc (by decide) round2MsgTEx) rfl
  exact ⟨h.1, h.2.1, h.2.2 id 0⟩

end Synedrion
